import Mathlib

/-!
# Node ping controller

A model of `node/node_ping_controller.go`: the constructor
`newNodePingController`, the probe attempt `checkFunc` inside `run`, the
scheduling loop of `run`, and the query `getResult`.

`run` spawns work through `singleflight.Group.DoChan` and blocks in `select`
statements, so it is modelled as a transition system: the state holds the
coordinator, the per-attempt contexts, the calls started by the dedup group and
the position of the `run` goroutine, and every event is one atomic action of a
goroutine, of a timer or of the environment.  A `select` statement is modelled by
the case it takes; the case has to be ready, otherwise the goroutine stays
blocked.
-/

namespace NodePing

/-! ## Data model -/

/-- Value of `time.Duration`: a signed count of nanoseconds. -/
abbrev Duration := Int

/-- Instant of `time.Time`, counted from the zero value `time.Time{}`. -/
abbrev Time := Int

/-- Identity of the `NodeProvider` a coordinator pings. Its behaviour (when `Ping`
returns and with which error) is supplied by the environment, see `Event`. -/
abbrev NodeProvider := Nat

/-- Values of Go's `error` that occur here: `context.Canceled`,
`context.DeadlineExceeded`, and whatever the provider returns. `nil` is `none`. -/
inductive Error where
  | canceled
  | deadlineExceeded
  | provider (code : Nat)
  deriving DecidableEq, Repr

/-- Struct `pingResult` (lines 25-28). -/
structure pingResult where
  pingTime : Time
  error : Option Error
  deriving DecidableEq, Repr

/-- Struct `nodePingController` (lines 14-23). `firstPingCompleted` is a channel
that is only ever closed: the field records whether it has been closed. The
embedded mutex is held only inside one atomic action of `checkFunc`, so it is
free in every state and is not a field. -/
structure nodePingController where
  nodeProvider : NodeProvider
  pingInterval : Duration
  firstPingCompleted : Bool
  pingTimeout : Option Duration
  result : pingResult
  deriving DecidableEq, Repr

/-- Result of running a piece of Go code: it is blocked (a `select` with no ready
case, or an action that is not enabled), it panics, or it completes. -/
inductive Outcome (α : Type) where
  | blocked
  | panicked (msg : String)
  | ok (a : α)
  deriving DecidableEq, Repr

/-- The zero value of `pingResult`. -/
def zeroResult : pingResult :=
  { pingTime := 0, error := none }

/-- Function `newNodePingController` (lines 30-45). -/
def newNodePingController (node : NodeProvider) (pingInterval : Duration)
    (timeout : Option Duration) : Outcome nodePingController :=
  if pingInterval = 0 then
    .panicked "Node ping interval is 0"
  else if (match timeout with | some t => decide (t = 0) | none => false) then
    .panicked "Node ping timeout is 0"
  else
    .ok { nodeProvider := node
          pingInterval := pingInterval
          firstPingCompleted := false
          pingTimeout := timeout
          result := zeroResult }

/-! ## getResult -/

/-- The case a two-way `select` takes: the context's `Done` channel, or the other
channel (`npc.firstPingCompleted` in `getResult`, `doChan` in `checkFunc`). -/
inductive SelectCase where
  | ctxDone
  | other
  deriving DecidableEq, Repr

/-- A pointer into the coordinator. `getResult` returns `&npc.result`. -/
inductive Ref where
  | npcResult
  deriving DecidableEq, Repr

/-- What a pointer returned by `getResult` shows when it is read while the
coordinator is `npc`. -/
def deref (npc : nodePingController) : Ref → pingResult
  | .npcResult => npc.result

/-- Method `getResult` (lines 104-112). `ctxErr` is the caller's `ctx.Err()` (`none`
while the context is live), `pick` the case the `select` takes. The return value
is the pair `(*pingResult, error)`, with `nil` as `none`. -/
def getResult (npc : nodePingController) (ctxErr : Option Error) (pick : SelectCase) :
    Outcome (Option Ref × Option Error) :=
  match pick with
  | .ctxDone =>
    match ctxErr with
    | some e => .ok (none, some e)
    | none => .blocked
  | .other =>
    if npc.firstPingCompleted then .ok (some .npcResult, none) else .blocked

/-! ## State of a run -/

/-- Dynamic value of an `interface{}`. -/
inductive Iface where
  | nil
  | time (t : Time)
  | other (tag : Nat)
  deriving DecidableEq, Repr

/-- Struct `singleflight.Result`. -/
structure Result where
  Val : Iface
  Err : Option Error
  Shared : Bool
  deriving DecidableEq, Repr

/-- Where the goroutine of a dedup-group call is: spawned and not yet running the
closure; inside `npc.nodeProvider.Ping(ctx)` with the local `now`; or done, with
the values the closure returned. -/
inductive CallPhase where
  | spawned
  | pinging (now : Time)
  | returned (val : Iface) (err : Option Error)
  deriving DecidableEq, Repr

/-- One call of the dedup group: the closure of lines 71-78 as created by attempt
`ctx` (the closure captures that attempt's context), the number of later callers
that joined, and its phase. `startedAt` and `finishedAt` record the clock when
`Ping` was invoked and when it returned. -/
structure Call where
  ctx : Nat
  dups : Nat
  phase : CallPhase
  startedAt : Option Time
  finishedAt : Option Time
  deriving DecidableEq, Repr

/-- One invocation of `checkFunc`: the context made by `mkContextFunc` (its
deadline, if any, and its `Err()`), and the call of the dedup group on which its
`doChan` waits. -/
structure Attempt where
  deadline : Option Time
  ctxErr : Option Error
  call : Nat
  deriving DecidableEq, Repr

/-- Position of the `run` goroutine. -/
inductive Pc where
  | start
  | inCheck (k : Nat) (first : Bool)
  | closing
  | loopHead
  | loopWait (due : Time)
  | stopped
  deriving DecidableEq, Repr

/-- State of one `run` of a coordinator. `rootErr` is `Err()` of the context passed
to `run`; `sf` is the entry of the dedup group's map under the fixed key `"key"`;
`writes` lists every value assigned to `npc.result`, newest first. -/
structure State where
  npc : nodePingController
  clock : Time
  rootErr : Option Error
  attempts : List Attempt
  sf : Option Nat
  calls : List Call
  pc : Pc
  writes : List pingResult
  deriving DecidableEq, Repr

/-- Replace the element at index `i` by its image under `f`. -/
def upd {α : Type} : List α → Nat → (α → α) → List α
  | [], _, _ => []
  | x :: xs, 0, f => f x :: xs
  | x :: xs, i + 1, f => x :: upd xs i f

/-! ## Contexts -/

/-- Modelled from the spec: `context.WithCancel` of the Go standard library, "derive
a plain cancelable context". The child has no deadline and is done as soon as its
parent is, with the parent's error. -/
def withCancel (parentErr : Option Error) : Option Time × Option Error :=
  (none, parentErr)

/-- Modelled from the spec: `context.WithTimeout` of the Go standard library, "apply
it as a deadline". The child's deadline is `d` after the clock; it is done at once
with the parent's error if the parent is done, and with `DeadlineExceeded` if the
deadline is not in the future. -/
def withTimeout (parentErr : Option Error) (clock : Time) (d : Duration) :
    Option Time × Option Error :=
  (some (clock + d),
    match parentErr with
    | some e => some e
    | none => if d ≤ 0 then some .deadlineExceeded else none)

/-- Variable `mkContextFunc` (lines 58-64). -/
def mkContextFunc (npc : nodePingController) (parentErr : Option Error) (clock : Time) :
    Option Time × Option Error :=
  match npc.pingTimeout with
  | some d => withTimeout parentErr clock d
  | none => withCancel parentErr

/-- Modelled from the spec: the `cancel` function of a derived context (Go standard
library `context`), "derive a plain cancelable context". Called for attempt `k`, it
makes the context done with `Canceled` unless it is done already. -/
def cancelCtx (as : List Attempt) (k : Nat) : List Attempt :=
  upd as k (fun a =>
    match a.ctxErr with
    | none => { a with ctxErr := some .canceled }
    | some _ => a)

/-- Value of `ctx.Err()` for the context of attempt `k`. -/
def ctxErrOf (s : State) (k : Nat) : Option Error :=
  match s.attempts[k]? with
  | some a => a.ctxErr
  | none => none

/-! ## The dedup group -/

/-- Modelled from the spec: `singleflight.Group.DoChan` (golang.org/x/sync), "first
caller for a key creates the future and starts the work, later callers for the same
key attach to the same future". Attempt `k` submits its closure under the fixed
key; the result is the new state and the call its channel is attached to. -/
def DoChan (s : State) (k : Nat) : State × Nat :=
  match s.sf with
  | some g =>
    ({ s with calls := upd s.calls g (fun c => { c with dups := c.dups + 1 }) }, g)
  | none =>
    ({ s with
        calls := s.calls ++
          [{ ctx := k, dups := 0, phase := .spawned, startedAt := none, finishedAt := none }]
        sf := some s.calls.length },
      s.calls.length)

/-- Modelled from the spec: the channel returned by `DoChan`, "on completion all
attached callers are released with the same value/error". The channel of attempt
`k` holds a `Result` once the call it is attached to has returned. -/
def doChan (s : State) (k : Nat) : Option Result :=
  match s.attempts[k]? with
  | none => none
  | some a =>
    match s.calls[a.call]? with
    | none => none
    | some c =>
      match c.phase with
      | .returned v e => some { Val := v, Err := e, Shared := decide (0 < c.dups) }
      | _ => none

/-- Closure of lines 71-78 up to the call of `Ping`: `now := time.Now()`. -/
def closureStart (clock : Time) (c : Call) : Call :=
  { c with phase := .pinging clock, startedAt := some clock }

/-- Closure of lines 71-78 from the return of `Ping` with `err`: `return now, err`. -/
def closureReturn (clock : Time) (now : Time) (err : Option Error) (c : Call) : Call :=
  { c with phase := .returned (.time now) err, finishedAt := some clock }

/-! ## checkFunc -/

/-- Closure `checkFunc` (lines 66-94) up to the `select`: derive the attempt's
context and submit the closure to the dedup group. `first` tells whether this is
the call of line 97. -/
def checkFuncBegin (s : State) (first : Bool) : State :=
  let k := s.attempts.length
  let c := mkContextFunc s.npc s.rootErr s.clock
  let d := DoChan s k
  { d.1 with
    attempts := s.attempts ++ [{ deadline := c.1, ctxErr := c.2, call := d.2 }]
    pc := .inCheck k first }

/-- The `select` of lines 80-88 for attempt `k`, taking case `pick`. -/
def checkFuncRace (s : State) (k : Nat) (pick : SelectCase) : Outcome pingResult :=
  match pick with
  | .ctxDone =>
    match ctxErrOf s k with
    | some e => .ok { pingTime := 0, error := some e }
    | none => .blocked
  | .other =>
    match doChan s k with
    | some r =>
      match r.Val with
      | .time t => .ok { pingTime := t, error := r.Err }
      | _ => .panicked "interface conversion: interface is not time.Time"
    | none => .blocked

/-- Lines 90-93 and the deferred calls of `checkFunc`: assign `npc.result` under the
lock, unlock, and cancel the attempt's context. In `run` the first call returns to
line 99, a call made by the loop returns into `wait.UntilWithContext`, which arms
its timer. -/
def checkFuncStore (s : State) (k : Nat) (first : Bool) (r : pingResult) : State :=
  { s with
    npc := { s.npc with result := r }
    writes := r :: s.writes
    attempts := cancelCtx s.attempts k
    pc := if first then .closing else .loopWait (s.clock + s.npc.pingInterval) }

/-- Closure `checkFunc` (lines 66-94) from the `select` on. -/
def checkFuncSelect (s : State) (k : Nat) (first : Bool) (pick : SelectCase) :
    Outcome State :=
  match checkFuncRace s k pick with
  | .ok r => .ok (checkFuncStore s k first r)
  | .blocked => .blocked
  | .panicked m => .panicked m

/-! ## run -/

/-- What the loop of `wait.UntilWithContext` does next: call the function, see its
timer fire, or see the context done and return. -/
inductive LoopAction where
  | call
  | timer
  | stop
  deriving DecidableEq, Repr

/-- Atomic actions of a run. -/
inductive Event where
  /-- The clock advances. -/
  | tick
  /-- The context passed to `run` becomes done: cancelled, or past its deadline. -/
  | rootDone (deadline : Bool)
  /-- The timer of the context of attempt `k` fires. -/
  | deadline (k : Nat)
  /-- The `run` goroutine calls `checkFunc` and reaches its `select`. -/
  | begin
  /-- The goroutine of call `g` reads the clock and invokes `Ping`. -/
  | callStart (g : Nat)
  /-- The provider returns `err` from the `Ping` of call `g`. -/
  | pingReturn (g : Nat) (err : Option Error)
  /-- The `select` of the running `checkFunc` takes a case; `checkFunc` returns. -/
  | select (pick : SelectCase)
  /-- Line 99: `close(npc.firstPingCompleted)`. -/
  | close
  /-- The timer of the periodic loop fires. -/
  | timer
  /-- The periodic loop sees the context of `run` done and returns. -/
  | stop
  deriving DecidableEq, Repr

/-- Modelled from the spec: propagation of cancellation to a derived context (Go
standard library `context`), "derive a per-attempt context from the loop's context".
A done parent makes every child that is not done yet done with its own error. -/
def propagate (e : Error) (a : Attempt) : Attempt :=
  match a.ctxErr with
  | none => { a with ctxErr := some e }
  | some _ => a

/-- Modelled from the spec: completion of a dedup-group call (`doCall` of
golang.org/x/sync/singleflight), "on completion all attached callers are released
with the same value/error and the entry is cleared". -/
def doCallFinish (s : State) (g : Nat) (now : Time) (err : Option Error) : State :=
  { s with
    calls := upd s.calls g (closureReturn s.clock now err)
    sf := if s.sf = some g then none else s.sf }

/-- Modelled from the spec: cancellation of a parent context (Go standard library
`context`), "cancelling the loop's root context": the context passed to `run`
becomes done, with `DeadlineExceeded` if `deadline` and `Canceled` otherwise, and
with it every attempt's context that is not done yet. -/
def ctxRootDone (s : State) (deadline : Bool) : Outcome State :=
  match s.rootErr with
  | some _ => .blocked
  | none =>
    let e : Error := if deadline then .deadlineExceeded else .canceled
    .ok { s with rootErr := some e, attempts := s.attempts.map (propagate e) }

/-- Modelled from the spec: the timer of `context.WithTimeout` (Go standard library),
"if `timeout` is configured, apply it as a deadline": once the clock has reached the
deadline of attempt `k`, its context, unless done already, becomes done with
`DeadlineExceeded`. -/
def ctxDeadline (s : State) (k : Nat) : Outcome State :=
  match s.attempts[k]? with
  | none => .blocked
  | some a =>
    match a.deadline, a.ctxErr with
    | some d, none =>
      if d ≤ s.clock then
        .ok { s with
              attempts := upd s.attempts k (fun a => { a with ctxErr := some .deadlineExceeded }) }
      else .blocked
    | _, _ => .blocked

/-- Modelled from the spec: the goroutine of a dedup-group call (`doCall` of
golang.org/x/sync/singleflight), "the group invokes the provider's probe operation":
the spawned goroutine of call `g` runs the closure up to its call of `Ping`. -/
def doCallStart (s : State) (g : Nat) : Outcome State :=
  match s.calls[g]? with
  | none => .blocked
  | some c =>
    match c.phase with
    | .spawned => .ok { s with calls := upd s.calls g (closureStart s.clock) }
    | _ => .blocked

/-- Modelled from the spec: the goroutine of a dedup-group call (`doCall` of
golang.org/x/sync/singleflight), "records whichever value/error is returned as the
result": the provider returns `err` from the `Ping` of call `g`, the closure
returns, and the call completes. -/
def doCallReturn (s : State) (g : Nat) (err : Option Error) : Outcome State :=
  match s.calls[g]? with
  | none => .blocked
  | some c =>
    match c.phase with
    | .pinging now => .ok (doCallFinish s g now err)
    | _ => .blocked

/-- Modelled from the spec: `wait.UntilWithContext` (k8s.io/apimachinery), "every
`interval`, execute a probe attempt; stop when the supplied context is cancelled".
At `loopHead` the loop returns if the context is done and otherwise calls
`checkFunc`; after `checkFunc` has returned it waits, at `loopWait`, for its timer
or for the context. -/
def untilWithContext (s : State) : LoopAction → Outcome State
  | .call =>
    match s.pc with
    | .loopHead =>
      match s.rootErr with
      | none => .ok (checkFuncBegin s false)
      | some _ => .blocked
    | _ => .blocked
  | .timer =>
    match s.pc with
    | .loopWait due => if due ≤ s.clock then .ok { s with pc := .loopHead } else .blocked
    | _ => .blocked
  | .stop =>
    match s.pc with
    | .loopHead =>
      match s.rootErr with
      | some _ => .ok { s with pc := .stopped }
      | none => .blocked
    | .loopWait _ =>
      match s.rootErr with
      | some _ => .ok { s with pc := .stopped }
      | none => .blocked
    | _ => .blocked

/-- One atomic action. Method `run` (lines 47-102) is the actions `begin`, `select`,
`close`, `timer` and `stop`, driven by `pc`: the first call of `checkFunc` (line
97), the close of the barrier (line 99), and the loop of line 101. The other
actions belong to the clock, the contexts and the goroutines of the dedup group. -/
def step (s : State) : Event → Outcome State
  | .tick => .ok { s with clock := s.clock + 1 }
  | .rootDone dl => ctxRootDone s dl
  | .deadline k => ctxDeadline s k
  | .begin =>
    match s.pc with
    | .start => .ok (checkFuncBegin s true)
    | _ => untilWithContext s .call
  | .callStart g => doCallStart s g
  | .pingReturn g err => doCallReturn s g err
  | .select pick =>
    match s.pc with
    | .inCheck k first => checkFuncSelect s k first pick
    | _ => .blocked
  | .close =>
    match s.pc with
    | .closing =>
      if s.npc.firstPingCompleted then .panicked "close of closed channel"
      else .ok { s with npc := { s.npc with firstPingCompleted := true }, pc := .loopHead }
    | _ => .blocked
  | .timer => untilWithContext s .timer
  | .stop => untilWithContext s .stop

/-- Run a sequence of actions. -/
def exec (s : State) : List Event → Outcome State
  | [] => .ok s
  | e :: es =>
    match step s e with
    | .ok s' => exec s' es
    | .blocked => .blocked
    | .panicked m => .panicked m

/-- State in which `run` is called on the coordinator `npc` at time `t0`. -/
def initState (npc : nodePingController) (t0 : Time) : State :=
  { npc := npc, clock := t0, rootErr := none, attempts := [], sf := none, calls := [],
    pc := .start, writes := [] }

/-- States a run can be in: `run` is called, at time `t0`, on the coordinator that
`newNodePingController node interval timeout` returned. -/
def Reachable (node : NodeProvider) (interval : Duration) (timeout : Option Duration)
    (t0 : Time) (s : State) : Prop :=
  ∃ npc evs, newNodePingController node interval timeout = .ok npc ∧
    exec (initState npc t0) evs = .ok s

/-- The provider's `Ping` is running in call `c`. -/
def Call.active (c : Call) : Bool :=
  match c.phase with
  | .pinging _ => true
  | _ => false

/-- The call has not delivered its result yet: it is spawned or inside `Ping`. -/
def Call.inFlight (c : Call) : Bool :=
  match c.phase with
  | .returned _ _ => false
  | _ => true

/-! ## Concrete runs -/

/-- The coordinator `newNodePingController 7 10 (some 5)` returns. -/
def demoNpc : nodePingController :=
  { nodeProvider := 7, pingInterval := 10, firstPingCompleted := false,
    pingTimeout := some 5, result := zeroResult }

/-- The state after the actions `evs` of a run of `demoNpc` started at time 100 (the
initial state if the actions cannot be taken). -/
def demoRun (evs : List Event) : State :=
  match exec (initState demoNpc 100) evs with
  | .ok s => s
  | _ => initState demoNpc 100

/-- A run in which the first `Ping` takes one clock unit and succeeds: the attempt
is still waiting in its `select`. -/
def demoQuick : List Event :=
  [.begin, .callStart 0, .tick, .pingReturn 0 none]

/-- A run in which the first `Ping` hangs and the first attempt's timeout fires: the
attempt is still waiting in its `select`. -/
def demoStuck : List Event :=
  [.begin, .callStart 0, .tick, .tick, .tick, .tick, .tick, .deadline 0]

/-- The run `demoStuck` continued: the first attempt records the timeout, the barrier
is closed, and the second attempt starts while the first `Ping` still hangs. -/
def demoJoin : List Event :=
  demoStuck ++ [.select .ctxDone, .close, .begin]

/-- The run `demoJoin` continued until the second attempt's timeout fires. -/
def demoSecondTimeout : List Event :=
  demoJoin ++ [.tick, .tick, .tick, .tick, .tick, .deadline 1]

/-- The run `demoQuick` continued: the first attempt takes the group's result and the
barrier is closed. -/
def demoFirstDone : List Event :=
  demoQuick ++ [.select .other, .close]

/-- The run `demoFirstDone` continued: the loop's attempt starts a second `Ping`, which
fails with provider error 3, and takes the group's result. -/
def demoSecondProbe : List Event :=
  demoFirstDone ++ [.begin, .callStart 1, .pingReturn 1 (some (.provider 3)), .select .other]

/-- Invariant of a run that started at time `t0`. -/
structure Inv (t0 : Time) (s : State) : Prop where
  /-- The entry of the group's map is a call that has not returned. -/
  sfLive : ∀ (g : Nat), s.sf = some g → ∃ c, s.calls[g]? = some c ∧ c.inFlight = true
  /-- A call that has not returned is the entry of the group's map. -/
  liveSf : ∀ (g : Nat) (c : Call), s.calls[g]? = some c → c.inFlight = true → s.sf = some g
  /-- A returned call delivers the clock value read before `Ping` was invoked. -/
  returned : ∀ (g : Nat) (c : Call) (v : Iface) (e : Option Error), s.calls[g]? = some c → c.phase = .returned v e →
    ∃ now fin, v = .time now ∧ c.startedAt = some now ∧ c.finishedAt = some fin ∧
      now ≤ fin ∧ t0 ≤ now
  /-- The local `now` of a running closure is a past clock value. -/
  pinging : ∀ (g : Nat) (c : Call) (now : Time), s.calls[g]? = some c → c.phase = .pinging now →
    c.startedAt = some now ∧ t0 ≤ now ∧ now ≤ s.clock
  /-- Errors of contexts are context errors. -/
  ctxKind : ∀ (k : Nat) (a : Attempt) (e : Error), s.attempts[k]? = some a → a.ctxErr = some e →
    e = .canceled ∨ e = .deadlineExceeded
  /-- The context of a call that has not returned belongs to the running attempt or
  is done. -/
  callCtx : ∀ (g : Nat) (c : Call), s.calls[g]? = some c → c.inFlight = true →
    (∃ first, s.pc = .inCheck c.ctx first) ∨ ctxErrOf s c.ctx ≠ none
  /-- Every attempt waits on a call of the group. -/
  attemptCall : ∀ (k : Nat) (a : Attempt), s.attempts[k]? = some a → a.call < s.calls.length
  /-- The running attempt is the newest one; the barrier is closed exactly from line
  99 on, after the first write. -/
  pcInv :
    match s.pc with
    | .start => s.npc.firstPingCompleted = false ∧ s.writes = [] ∧ s.attempts = []
    | .inCheck k first =>
      k + 1 = s.attempts.length ∧
        (first = true → s.npc.firstPingCompleted = false ∧ s.writes = [] ∧ k = 0) ∧
        (first = false → s.npc.firstPingCompleted = true ∧ s.writes ≠ [])
    | .closing =>
      s.npc.firstPingCompleted = false ∧ s.writes.length = 1 ∧ s.attempts.length = 1
    | _ => s.npc.firstPingCompleted = true ∧ s.writes ≠ []
  /-- The cache holds the newest write. -/
  resultHead : s.npc.result = s.writes.headD zeroResult
  /-- Every write carries an error or a clock value. -/
  writesSet : ∀ r ∈ s.writes, r.error ≠ none ∨ t0 ≤ r.pingTime
  /-- The error of the context of `run` is a context error. -/
  rootKind : ∀ (e : Error), s.rootErr = some e → e = .canceled ∨ e = .deadlineExceeded
  /-- The clock does not run backwards. -/
  clockGe : t0 ≤ s.clock

/-! ## Lists -/

theorem upd_length {α : Type} (l : List α) (i : Nat) (f : α → α) :
    (upd l i f).length = l.length := by
  induction l generalizing i with
  | nil => rfl
  | cons x xs ih =>
    cases i with
    | zero => rfl
    | succ i => simp [upd, ih]

theorem getElem?_upd {α : Type} (l : List α) (i j : Nat) (f : α → α) :
    (upd l i f)[j]? = if j = i then (l[j]?).map f else l[j]? := by
  induction l generalizing i j with
  | nil => simp [upd]
  | cons x xs ih =>
    cases i with
    | zero =>
      cases j with
      | zero => simp [upd]
      | succ j => simp [upd]
    | succ i =>
      cases j with
      | zero => simp [upd]
      | succ j => simp [upd, ih]

theorem getElem?_snoc {α : Type} (l : List α) (x : α) (j : Nat) :
    (l ++ [x])[j]? = if j < l.length then l[j]? else if j = l.length then some x else none := by
  by_cases h : j < l.length
  · simp [h, List.getElem?_append_left h]
  · have h' : l.length ≤ j := Nat.le_of_not_lt h
    rw [List.getElem?_append_right h']
    by_cases h2 : j = l.length
    · simp [h2]
    · have : j - l.length ≠ 0 := by omega
      obtain ⟨m, hm⟩ := Nat.exists_eq_succ_of_ne_zero this
      simp [h, h2, hm]

/-! ## The invariant holds in every reachable state -/

theorem inv_init (npc : nodePingController) (t0 : Time)
    (h1 : npc.firstPingCompleted = false) (h2 : npc.result = zeroResult) :
    Inv t0 (initState npc t0) := by
  constructor <;> simp [initState, h1, h2, ctxErrOf]

theorem inv_tick {t0 : Time} {s : State} (h : Inv t0 s) :
    Inv t0 { s with clock := s.clock + 1 } := by
  obtain ⟨a1, a2, a3, a4, a5, a6, a7, a8, a9, a10, a11, a12⟩ := h
  refine ⟨a1, a2, a3, ?_, a5, a6, a7, a8, a9, a10, a11, ?_⟩
  · intro g c now h1 h2
    obtain ⟨b1, b2, b3⟩ := a4 g c now h1 h2
    exact ⟨b1, b2, by simp only; linarith⟩
  · simp only; linarith

theorem inv_rootDone {t0 : Time} {s : State} (h : Inv t0 s) (dl : Bool) :
    Inv t0 { s with rootErr := some (if dl then Error.deadlineExceeded else Error.canceled),
                    attempts := s.attempts.map
                      (propagate (if dl then Error.deadlineExceeded else Error.canceled)) } := by
  obtain ⟨a1, a2, a3, a4, a5, a6, a7, a8, a9, a10, a11, a12⟩ := h
  refine ⟨a1, a2, a3, a4, ?_, ?_, ?_, ?_, a9, a10, ?_, a12⟩
  · intro k a e h1 h2
    simp only [List.getElem?_map, Option.map_eq_some'] at h1
    obtain ⟨a0, h3, h4⟩ := h1
    subst h4
    unfold propagate at h2
    split at h2
    · simp at h2; subst h2; cases dl <;> simp
    · exact a5 k a0 e h3 h2
  · intro g c h1 h2
    rcases a6 g c h1 h2 with h3 | h3
    · exact Or.inl h3
    · right
      simp only [ctxErrOf, List.getElem?_map] at h3 ⊢
      cases h4 : s.attempts[c.ctx]? with
      | none => simp [h4] at h3
      | some a0 =>
        simp only [h4, Option.map_some'] at h3 ⊢
        unfold propagate
        split <;> simp_all
  · intro k a h1
    simp only [List.getElem?_map, Option.map_eq_some'] at h1
    obtain ⟨a0, h3, h4⟩ := h1
    subst h4
    have := a7 k a0 h3
    unfold propagate
    split <;> simpa using this
  · simp only [List.length_map]
    cases hp : s.pc <;> simp_all
  · intro e h1
    simp at h1
    subst h1
    cases dl <;> simp


theorem ctxErrOf_upd_ne (s : State) (k j : Nat) (f : Attempt → Attempt)
    (hmono : ∀ a, a.ctxErr ≠ none → (f a).ctxErr ≠ none) (h : ctxErrOf s j ≠ none) :
    ctxErrOf { s with attempts := upd s.attempts k f } j ≠ none := by
  simp only [ctxErrOf, getElem?_upd] at h ⊢
  cases h4 : s.attempts[j]? with
  | none => simp [h4] at h
  | some a0 =>
    simp only [h4] at h
    by_cases hj : j = k
    · subst hj
      simpa [h4] using hmono a0 h
    · simpa [hj, h4] using h

theorem inv_attempts_upd {t0 : Time} {s : State} (h : Inv t0 s) (k : Nat)
    (f : Attempt → Attempt) (hcall : ∀ a, (f a).call = a.call)
    (hkind : ∀ a e, (f a).ctxErr = some e →
      a.ctxErr = some e ∨ e = .canceled ∨ e = .deadlineExceeded)
    (hmono : ∀ a, a.ctxErr ≠ none → (f a).ctxErr ≠ none) :
    Inv t0 { s with attempts := upd s.attempts k f } := by
  obtain ⟨a1, a2, a3, a4, a5, a6, a7, a8, a9, a10, a11, a12⟩ := h
  refine ⟨a1, a2, a3, a4, ?_, ?_, ?_, ?_, a9, a10, a11, a12⟩
  · intro j a e h1 h2
    simp only [getElem?_upd] at h1
    split at h1
    · simp only [Option.map_eq_some'] at h1
      obtain ⟨a0, h3, h4⟩ := h1
      subst h4
      rcases hkind a0 e h2 with h5 | h5
      · exact a5 j a0 e h3 h5
      · exact h5
    · exact a5 j a e h1 h2
  · intro g c h1 h2
    rcases a6 g c h1 h2 with h3 | h3
    · exact Or.inl h3
    · exact Or.inr (ctxErrOf_upd_ne s k c.ctx f hmono h3)
  · intro j a h1
    simp only [getElem?_upd] at h1
    split at h1
    · simp only [Option.map_eq_some'] at h1
      obtain ⟨a0, h3, h4⟩ := h1
      subst h4
      rw [hcall]
      exact a7 j a0 h3
    · exact a7 j a h1
  · simp only [upd_length]
    cases hp : s.pc <;> simp_all [upd]

theorem inv_callStart {t0 : Time} {s : State} (h : Inv t0 s) (g : Nat) (c0 : Call)
    (hg : s.calls[g]? = some c0) (hp : c0.phase = .spawned) :
    Inv t0 { s with calls := upd s.calls g (closureStart s.clock) } := by
  obtain ⟨a1, a2, a3, a4, a5, a6, a7, a8, a9, a10, a11, a12⟩ := h
  refine ⟨?_, ?_, ?_, ?_, a5, ?_, ?_, a8, a9, a10, a11, a12⟩
  · intro j hj
    obtain ⟨c, h1, h2⟩ := a1 j hj
    simp only [getElem?_upd]
    by_cases hjg : j = g
    · subst hjg
      refine ⟨closureStart s.clock c, by simp [h1], ?_⟩
      simp [closureStart, Call.inFlight]
    · exact ⟨c, by simp [hjg, h1], h2⟩
  · intro j c h1 h2
    simp only [getElem?_upd] at h1
    split at h1
    · rename_i hjg
      subst hjg
      exact a2 j c0 hg (by simp [Call.inFlight, hp])
    · exact a2 j c h1 h2
  · intro j c v e h1 h2
    simp only [getElem?_upd] at h1
    split at h1
    · simp only [Option.map_eq_some'] at h1
      obtain ⟨c1, h3, h4⟩ := h1
      subst h4
      simp [closureStart] at h2
    · exact a3 j c v e h1 h2
  · intro j c now h1 h2
    simp only [getElem?_upd] at h1
    split at h1
    · simp only [Option.map_eq_some'] at h1
      obtain ⟨c1, h3, h4⟩ := h1
      subst h4
      simp only [closureStart, CallPhase.pinging.injEq] at h2
      subst h2
      exact ⟨rfl, a12, le_refl _⟩
    · exact a4 j c now h1 h2
  · intro j c h1 h2
    simp only [getElem?_upd] at h1
    split at h1
    · rename_i hjg
      subst hjg
      simp only [Option.map_eq_some'] at h1
      obtain ⟨c1, h3, h4⟩ := h1
      subst h4
      rw [hg] at h3
      cases h3
      exact a6 j c0 hg (by simp [Call.inFlight, hp])
    · exact a6 j c h1 h2
  · intro k a h1
    simp only [upd_length]
    exact a7 k a h1

theorem inv_pingReturn {t0 : Time} {s : State} (h : Inv t0 s) (g : Nat) (c0 : Call)
    (now : Time) (err : Option Error)
    (hg : s.calls[g]? = some c0) (hp : c0.phase = .pinging now) :
    Inv t0 (doCallFinish s g now err) := by
  obtain ⟨a1, a2, a3, a4, a5, a6, a7, a8, a9, a10, a11, a12⟩ := h
  have hsf : s.sf = some g := a2 g c0 hg (by simp [Call.inFlight, hp])
  unfold doCallFinish
  refine ⟨?_, ?_, ?_, ?_, a5, ?_, ?_, a8, a9, a10, a11, a12⟩
  · intro j hj
    simp [hsf] at hj
  · intro j c h1 h2
    simp only [getElem?_upd] at h1
    split at h1
    · simp only [Option.map_eq_some'] at h1
      obtain ⟨c1, h3, h4⟩ := h1
      subst h4
      simp [closureReturn, Call.inFlight] at h2
    · rename_i hjg
      have := a2 j c h1 h2
      rw [hsf] at this
      exact absurd (Option.some.inj this).symm hjg
  · intro j c v e h1 h2
    simp only [getElem?_upd] at h1
    split at h1
    · rename_i hjg
      subst hjg
      simp only [Option.map_eq_some'] at h1
      obtain ⟨c1, h3, h4⟩ := h1
      subst h4
      rw [hg] at h3
      cases h3
      obtain ⟨b1, b2, b3⟩ := a4 j c0 now hg hp
      simp only [closureReturn, CallPhase.returned.injEq] at h2
      exact ⟨now, s.clock, h2.1.symm, b1, rfl, b3, b2⟩
    · exact a3 j c v e h1 h2
  · intro j c now1 h1 h2
    simp only [getElem?_upd] at h1
    split at h1
    · simp only [Option.map_eq_some'] at h1
      obtain ⟨c1, h3, h4⟩ := h1
      subst h4
      simp [closureReturn] at h2
    · exact a4 j c now1 h1 h2
  · intro j c h1 h2
    simp only [getElem?_upd] at h1
    split at h1
    · simp only [Option.map_eq_some'] at h1
      obtain ⟨c1, h3, h4⟩ := h1
      subst h4
      simp [closureReturn, Call.inFlight] at h2
    · exact a6 j c h1 h2
  · intro k a h1
    simp only [upd_length]
    exact a7 k a h1

theorem inv_pc {t0 : Time} {s : State} (h : Inv t0 s) (pc : Pc) (fired : Bool)
    (hold : ∀ k first, s.pc ≠ .inCheck k first)
    (hnew :
      match pc with
      | .start => fired = false ∧ s.writes = [] ∧ s.attempts = []
      | .inCheck k first =>
        k + 1 = s.attempts.length ∧
          (first = true → fired = false ∧ s.writes = [] ∧ k = 0) ∧
          (first = false → fired = true ∧ s.writes ≠ [])
      | .closing => fired = false ∧ s.writes.length = 1 ∧ s.attempts.length = 1
      | _ => fired = true ∧ s.writes ≠ []) :
    Inv t0 { s with npc := { s.npc with firstPingCompleted := fired }, pc := pc } := by
  obtain ⟨a1, a2, a3, a4, a5, a6, a7, a8, a9, a10, a11, a12⟩ := h
  refine ⟨a1, a2, a3, a4, a5, ?_, a7, hnew, a9, a10, a11, a12⟩
  intro g c h1 h2
  rcases a6 g c h1 h2 with ⟨first, h3⟩ | h3
  · exact absurd h3 (hold _ _)
  · exact Or.inr h3

theorem mkContextFunc_err (npc : nodePingController) (r : Option Error) (clock : Time)
    (e : Error) (h : (mkContextFunc npc r clock).2 = some e) :
    r = some e ∨ e = .deadlineExceeded := by
  unfold mkContextFunc withTimeout withCancel at h
  cases hto : npc.pingTimeout with
  | none => simp [hto] at h; exact Or.inl h
  | some d =>
    simp only [hto] at h
    cases r with
    | some e0 => simp at h; exact Or.inl (by rw [h])
    | none =>
      simp only at h
      split at h
      · simp at h; exact Or.inr h.symm
      · simp at h

theorem ctxErrOf_snoc_ne (s : State) (a : Attempt) (j : Nat) (h : ctxErrOf s j ≠ none) :
    ctxErrOf { s with attempts := s.attempts ++ [a] } j ≠ none := by
  simp only [ctxErrOf] at h ⊢
  cases h4 : s.attempts[j]? with
  | none => simp [h4] at h
  | some a0 =>
    have hlt : j < s.attempts.length := by
      by_contra hc
      have := List.getElem?_eq_none (Nat.le_of_not_lt hc)
      rw [this] at h4
      cases h4
    simp only [getElem?_snoc, hlt, if_true, h4]
    simpa [h4] using h

theorem inv_begin {t0 : Time} {s : State} (h : Inv t0 s) (first : Bool)
    (hpc : (first = true ∧ s.pc = .start) ∨ (first = false ∧ s.pc = .loopHead)) :
    Inv t0 (checkFuncBegin s first) := by
  obtain ⟨a1, a2, a3, a4, a5, a6, a7, a8, a9, a10, a11, a12⟩ := h
  have hnot : ∀ k f, s.pc ≠ .inCheck k f := by
    intro k f hk
    rcases hpc with ⟨_, h1⟩ | ⟨_, h1⟩ <;> rw [h1] at hk <;> cases hk
  have hold6 : ∀ (g : Nat) (c : Call), s.calls[g]? = some c → c.inFlight = true → ctxErrOf s c.ctx ≠ none := by
    intro g c h1 h2
    rcases a6 g c h1 h2 with ⟨f, h3⟩ | h3
    · exact absurd h3 (hnot _ _)
    · exact h3
  have hpc8 : (first = true → s.npc.firstPingCompleted = false ∧ s.writes = [] ∧
        s.attempts.length = 0) ∧
      (first = false → s.npc.firstPingCompleted = true ∧ s.writes ≠ []) := by
    rcases hpc with ⟨h1, h2⟩ | ⟨h1, h2⟩
    · rw [h2] at a8
      simp [h1, a8.1, a8.2.1, a8.2.2]
    · rw [h2] at a8
      simp [h1, a8.1, a8.2]
  have hkind : ∀ e, (mkContextFunc s.npc s.rootErr s.clock).2 = some e →
      e = .canceled ∨ e = .deadlineExceeded := by
    intro e he
    rcases mkContextFunc_err _ _ _ _ he with h1 | h1
    · exact a11 e h1
    · exact Or.inr h1
  unfold checkFuncBegin DoChan
  cases hsf : s.sf with
  | some g =>
    obtain ⟨cg, hcg, hfl⟩ := a1 g hsf
    have hglt : g < s.calls.length := by
      by_contra hc
      have := List.getElem?_eq_none (Nat.le_of_not_lt hc)
      rw [this] at hcg
      cases hcg
    simp only
    refine ⟨?_, ?_, ?_, ?_, ?_, ?_, ?_, ?_, a9, a10, a11, a12⟩
    · intro j hj
      simp only [Option.some.injEq] at hj
      subst hj
      exact ⟨{ cg with dups := cg.dups + 1 }, by simp [getElem?_upd, hcg],
        by simpa [Call.inFlight] using hfl⟩
    · intro j c h1 h2
      simp only [getElem?_upd] at h1
      split at h1
      · rename_i hjg
        rw [hjg]
      · have := a2 j c h1 h2
        rw [hsf] at this
        exact this.symm ▸ rfl
    · intro j c v e h1 h2
      simp only [getElem?_upd] at h1
      split at h1
      · simp only [Option.map_eq_some'] at h1
        obtain ⟨c1, h3, h4⟩ := h1
        subst h4
        exact a3 j c1 v e h3 h2
      · exact a3 j c v e h1 h2
    · intro j c now h1 h2
      simp only [getElem?_upd] at h1
      split at h1
      · simp only [Option.map_eq_some'] at h1
        obtain ⟨c1, h3, h4⟩ := h1
        subst h4
        exact a4 j c1 now h3 h2
      · exact a4 j c now h1 h2
    · intro j a e h1 h2
      simp only [getElem?_snoc] at h1
      split at h1
      · exact a5 j a e h1 h2
      · split at h1
        · cases h1
          exact hkind e h2
        · cases h1
    · intro j c h1 h2
      right
      simp only [getElem?_upd] at h1
      split at h1
      · simp only [Option.map_eq_some'] at h1
        obtain ⟨c1, h3, h4⟩ := h1
        subst h4
        exact ctxErrOf_snoc_ne s _ _ (hold6 j c1 h3 (by simpa [Call.inFlight] using h2))
      · exact ctxErrOf_snoc_ne s _ _ (hold6 j c h1 h2)
    · intro j a h1
      simp only [upd_length]
      simp only [getElem?_snoc] at h1
      split at h1
      · exact a7 j a h1
      · split at h1
        · cases h1
          exact hglt
        · cases h1
    · simp only [List.length_append, List.length_singleton, true_and]
      constructor
      · intro hf
        exact hpc8.1 hf
      · intro hf
        exact hpc8.2 hf
  | none =>
    have hdead : ∀ (g : Nat) (c : Call), s.calls[g]? = some c → c.inFlight = false := by
      intro g c h1
      by_contra hc
      have := a2 g c h1 (by simpa using hc)
      rw [hsf] at this
      cases this
    simp only
    refine ⟨?_, ?_, ?_, ?_, ?_, ?_, ?_, ?_, a9, a10, a11, a12⟩
    · intro j hj
      simp only [Option.some.injEq] at hj
      subst hj
      exact ⟨(⟨s.attempts.length, 0, .spawned, none, none⟩ : Call),
        by simp [getElem?_snoc], by simp [Call.inFlight]⟩
    · intro j c h1 h2
      simp only [getElem?_snoc] at h1
      split at h1
      · rw [hdead j c h1] at h2
        cases h2
      · split at h1
        · rename_i hj
          rw [hj]
        · cases h1
    · intro j c v e h1 h2
      simp only [getElem?_snoc] at h1
      split at h1
      · exact a3 j c v e h1 h2
      · split at h1
        · cases h1
          cases h2
        · cases h1
    · intro j c now h1 h2
      simp only [getElem?_snoc] at h1
      split at h1
      · exact a4 j c now h1 h2
      · split at h1
        · cases h1
          cases h2
        · cases h1
    · intro j a e h1 h2
      simp only [getElem?_snoc] at h1
      split at h1
      · exact a5 j a e h1 h2
      · split at h1
        · cases h1
          exact hkind e h2
        · cases h1
    · intro j c h1 h2
      simp only [getElem?_snoc] at h1
      split at h1
      · rw [hdead j c h1] at h2
        cases h2
      · split at h1
        · cases h1
          exact Or.inl ⟨first, rfl⟩
        · cases h1
    · intro j a h1
      simp only [List.length_append, List.length_singleton]
      simp only [getElem?_snoc] at h1
      split at h1
      · exact Nat.lt_succ_of_lt (a7 j a h1)
      · split at h1
        · cases h1
          exact Nat.lt_succ_self _
        · cases h1
    · simp only [List.length_append, List.length_singleton, true_and]
      constructor
      · intro hf
        exact hpc8.1 hf
      · intro hf
        exact hpc8.2 hf

theorem ctxErrOf_cancel (s : State) (k : Nat) (hk : k < s.attempts.length) :
    ctxErrOf { s with attempts := cancelCtx s.attempts k } k ≠ none := by
  simp only [ctxErrOf, cancelCtx, getElem?_upd, if_true]
  obtain ⟨a, ha⟩ : ∃ a, s.attempts[k]? = some a := ⟨s.attempts[k], List.getElem?_eq_getElem hk⟩
  rw [ha]
  simp only [Option.map_some']
  cases hc : a.ctxErr <;> simp [hc]

theorem doChan_returned {t0 : Time} {s : State} (h : Inv t0 s) (k : Nat) (r : Result)
    (hr : doChan s k = some r) :
    ∃ a c now fin, s.attempts[k]? = some a ∧ s.calls[a.call]? = some c ∧
      c.phase = .returned (.time now) r.Err ∧ r.Val = .time now ∧
      c.startedAt = some now ∧ c.finishedAt = some fin ∧ now ≤ fin ∧ t0 ≤ now := by
  unfold doChan at hr
  cases ha : s.attempts[k]? with
  | none => simp [ha] at hr
  | some a =>
    simp only [ha] at hr
    cases hc : s.calls[a.call]? with
    | none => simp [hc] at hr
    | some c =>
      simp only [hc] at hr
      cases hp : c.phase with
      | spawned => simp [hp] at hr
      | pinging now => simp [hp] at hr
      | returned v e =>
        simp only [hp, Option.some.injEq] at hr
        obtain ⟨now, fin, b1, b2, b3, b4, b5⟩ := h.returned a.call c v e hc hp
        subst hr
        subst b1
        exact ⟨a, c, now, fin, rfl, hc, hp, rfl, b2, b3, b4, b5⟩

theorem checkFuncRace_ok {t0 : Time} {s : State} (h : Inv t0 s) (k : Nat)
    (pick : SelectCase) (r : pingResult) (hr : checkFuncRace s k pick = .ok r) :
    r.error ≠ none ∨ t0 ≤ r.pingTime := by
  unfold checkFuncRace at hr
  cases pick with
  | ctxDone =>
    simp only at hr
    cases he : ctxErrOf s k with
    | none => simp [he] at hr
    | some e =>
      simp only [he, Outcome.ok.injEq] at hr
      subst hr
      exact Or.inl (by simp)
  | other =>
    simp only at hr
    cases hd : doChan s k with
    | none => simp [hd] at hr
    | some res =>
      obtain ⟨a, c, now, fin, _, _, _, b4, _, _, _, b8⟩ := doChan_returned h k res hd
      simp only [hd, b4, Outcome.ok.injEq] at hr
      subst hr
      exact Or.inr b8

theorem inv_store {t0 : Time} {s : State} (h : Inv t0 s) (k : Nat) (first : Bool)
    (hpc : s.pc = .inCheck k first) (r : pingResult)
    (hr : r.error ≠ none ∨ t0 ≤ r.pingTime) :
    Inv t0 (checkFuncStore s k first r) := by
  have h1 : Inv t0 { s with attempts := cancelCtx s.attempts k } := by
    apply inv_attempts_upd h
    · intro a
      cases hc : a.ctxErr <;> simp [hc]
    · intro a e
      cases hc : a.ctxErr with
      | none =>
        simp only [hc, Option.some.injEq]
        intro he
        exact Or.inr (Or.inl he.symm)
      | some e0 =>
        simp only [hc]
        intro he
        exact Or.inl he
    · intro a
      cases hc : a.ctxErr <;> simp [hc]
  have h8 := h.pcInv
  rw [hpc] at h8
  simp only at h8
  have hk : k < s.attempts.length := by omega
  obtain ⟨a1, a2, a3, a4, a5, a6, a7, a8, a9, a10, a11, a12⟩ := h1
  unfold checkFuncStore
  refine ⟨a1, a2, a3, a4, a5, ?_, a7, ?_, ?_, ?_, a11, a12⟩
  · intro g c hg hfl
    right
    rcases h.callCtx g c hg hfl with ⟨f, h3⟩ | h3
    · rw [hpc] at h3
      simp only [Pc.inCheck.injEq] at h3
      rw [← h3.1]
      exact ctxErrOf_cancel s k hk
    · rcases a6 g c hg hfl with ⟨f, h4⟩ | h4
      · simp only at h4
        rw [hpc] at h4
        simp only [Pc.inCheck.injEq] at h4
        rw [← h4.1]
        exact ctxErrOf_cancel s k hk
      · exact h4
  · cases first with
    | true =>
      have := h8.2.1 rfl
      simp [cancelCtx, upd_length, this.1, this.2.1]
      omega
    | false =>
      have := h8.2.2 rfl
      simp [this.1]
  · simp
  · intro r1 hr1
    simp only [List.mem_cons] at hr1
    rcases hr1 with hr1 | hr1
    · rw [hr1]
      exact hr
    · exact h.writesSet r1 hr1

theorem inv_step {t0 : Time} {s s' : State} (h : Inv t0 s) (e : Event)
    (hs : step s e = .ok s') : Inv t0 s' := by
  cases e with
  | tick =>
    simp only [step, Outcome.ok.injEq] at hs
    subst hs
    exact inv_tick h
  | rootDone dl =>
    simp only [step, ctxRootDone, ctxDeadline, doCallStart, doCallReturn, untilWithContext] at hs
    cases hr : s.rootErr with
    | some e0 => simp [hr] at hs
    | none =>
      simp only [hr, Outcome.ok.injEq] at hs
      subst hs
      exact inv_rootDone h dl
  | deadline k =>
    simp only [step, ctxRootDone, ctxDeadline, doCallStart, doCallReturn, untilWithContext] at hs
    cases ha : s.attempts[k]? with
    | none => simp [ha] at hs
    | some a =>
      simp only [ha] at hs
      split at hs
      · split at hs
        · simp only [Outcome.ok.injEq] at hs
          subst hs
          apply inv_attempts_upd h
          · intro a; rfl
          · intro a e he
            simp only [Option.some.injEq] at he
            exact Or.inr (Or.inr he.symm)
          · intro a _
            simp
        · cases hs
      · cases hs
  | begin =>
    simp only [step, ctxRootDone, ctxDeadline, doCallStart, doCallReturn, untilWithContext] at hs
    cases hp : s.pc with
    | start =>
      simp only [hp, Outcome.ok.injEq] at hs
      subst hs
      exact inv_begin h true (Or.inl ⟨rfl, hp⟩)
    | loopHead =>
      simp only [hp] at hs
      cases hr : s.rootErr with
      | some e0 => simp [hr] at hs
      | none =>
        simp only [hr, Outcome.ok.injEq] at hs
        subst hs
        exact inv_begin h false (Or.inr ⟨rfl, hp⟩)
    | inCheck k f => simp [hp] at hs
    | closing => simp [hp] at hs
    | loopWait d => simp [hp] at hs
    | stopped => simp [hp] at hs
  | callStart g =>
    simp only [step, ctxRootDone, ctxDeadline, doCallStart, doCallReturn, untilWithContext] at hs
    cases hc : s.calls[g]? with
    | none => simp [hc] at hs
    | some c =>
      simp only [hc] at hs
      cases hp : c.phase with
      | spawned =>
        simp only [hp, Outcome.ok.injEq] at hs
        subst hs
        exact inv_callStart h g c hc hp
      | pinging now => simp [hp] at hs
      | returned v e => simp [hp] at hs
  | pingReturn g err =>
    simp only [step, ctxRootDone, ctxDeadline, doCallStart, doCallReturn, untilWithContext] at hs
    cases hc : s.calls[g]? with
    | none => simp [hc] at hs
    | some c =>
      simp only [hc] at hs
      cases hp : c.phase with
      | spawned => simp [hp] at hs
      | pinging now =>
        simp only [hp, Outcome.ok.injEq] at hs
        subst hs
        exact inv_pingReturn h g c now err hc hp
      | returned v e => simp [hp] at hs
  | select pick =>
    simp only [step, ctxRootDone, ctxDeadline, doCallStart, doCallReturn, untilWithContext] at hs
    cases hp : s.pc with
    | inCheck k first =>
      simp only [hp, checkFuncSelect] at hs
      cases hr : checkFuncRace s k pick with
      | ok r =>
        simp only [hr, Outcome.ok.injEq] at hs
        subst hs
        exact inv_store h k first hp r (checkFuncRace_ok h k pick r hr)
      | blocked => simp [hr] at hs
      | panicked m => simp [hr] at hs
    | start => simp [hp] at hs
    | closing => simp [hp] at hs
    | loopHead => simp [hp] at hs
    | loopWait d => simp [hp] at hs
    | stopped => simp [hp] at hs
  | close =>
    simp only [step, ctxRootDone, ctxDeadline, doCallStart, doCallReturn, untilWithContext] at hs
    cases hp : s.pc with
    | closing =>
      simp only [hp] at hs
      split at hs
      · cases hs
      · simp only [Outcome.ok.injEq] at hs
        subst hs
        have h8 := h.pcInv
        rw [hp] at h8
        apply inv_pc h
        · intro k f hk
          rw [hp] at hk
          cases hk
        · simp only [true_and]
          intro hw
          rw [hw] at h8
          simp at h8
    | start => simp [hp] at hs
    | inCheck k f => simp [hp] at hs
    | loopHead => simp [hp] at hs
    | loopWait d => simp [hp] at hs
    | stopped => simp [hp] at hs
  | timer =>
    simp only [step, ctxRootDone, ctxDeadline, doCallStart, doCallReturn, untilWithContext] at hs
    cases hp : s.pc with
    | loopWait d =>
      simp only [hp] at hs
      split at hs
      · simp only [Outcome.ok.injEq] at hs
        subst hs
        have h8 := h.pcInv
        rw [hp] at h8
        have := inv_pc h .loopHead s.npc.firstPingCompleted
          (by intro k f hk; rw [hp] at hk; cases hk) (by simpa using h8)
        exact this
      · cases hs
    | start => simp [hp] at hs
    | inCheck k f => simp [hp] at hs
    | loopHead => simp [hp] at hs
    | closing => simp [hp] at hs
    | stopped => simp [hp] at hs
  | stop =>
    simp only [step, ctxRootDone, ctxDeadline, doCallStart, doCallReturn, untilWithContext] at hs
    cases hp : s.pc with
    | loopWait d =>
      simp only [hp] at hs
      split at hs
      · simp only [Outcome.ok.injEq] at hs
        subst hs
        have h8 := h.pcInv
        rw [hp] at h8
        exact inv_pc h .stopped s.npc.firstPingCompleted
          (by intro k f hk; rw [hp] at hk; cases hk) (by simpa using h8)
      · cases hs
    | loopHead =>
      simp only [hp] at hs
      split at hs
      · simp only [Outcome.ok.injEq] at hs
        subst hs
        have h8 := h.pcInv
        rw [hp] at h8
        exact inv_pc h .stopped s.npc.firstPingCompleted
          (by intro k f hk; rw [hp] at hk; cases hk) (by simpa using h8)
      · cases hs
    | start => simp [hp] at hs
    | inCheck k f => simp [hp] at hs
    | closing => simp [hp] at hs
    | stopped => simp [hp] at hs

theorem inv_exec {t0 : Time} (evs : List Event) {s s' : State} (h : Inv t0 s)
    (hs : exec s evs = .ok s') : Inv t0 s' := by
  induction evs generalizing s with
  | nil =>
    simp only [exec, Outcome.ok.injEq] at hs
    subst hs
    exact h
  | cons e es ih =>
    simp only [exec] at hs
    cases h1 : step s e with
    | ok s1 =>
      simp only [h1] at hs
      exact ih (inv_step h e h1) hs
    | blocked => simp [h1] at hs
    | panicked m => simp [h1] at hs

theorem newNodePingController_ok {node : NodeProvider} {interval : Duration}
    {timeout : Option Duration} {npc : nodePingController}
    (h : newNodePingController node interval timeout = .ok npc) :
    interval ≠ 0 ∧ timeout ≠ some 0 ∧
      npc = { nodeProvider := node, pingInterval := interval, firstPingCompleted := false,
              pingTimeout := timeout, result := zeroResult } := by
  unfold newNodePingController at h
  split at h
  · cases h
  · rename_i h0
    split at h
    · cases h
    · rename_i h1
      simp only [Outcome.ok.injEq] at h
      refine ⟨h0, ?_, h.symm⟩
      intro ht
      subst ht
      simp at h1

theorem inv_reachable {node : NodeProvider} {interval : Duration}
    {timeout : Option Duration} {t0 : Time} {s : State}
    (h : Reachable node interval timeout t0 s) : Inv t0 s := by
  obtain ⟨npc, evs, h1, h2⟩ := h
  obtain ⟨_, _, h3⟩ := newNodePingController_ok h1
  exact inv_exec evs (inv_init npc t0 (by rw [h3]) (by rw [h3])) h2

/-! ## Steps, the barrier and the cache -/

theorem checkFuncBegin_npc (s : State) (first : Bool) :
    (checkFuncBegin s first).npc = s.npc ∧ (checkFuncBegin s first).writes = s.writes := by
  unfold checkFuncBegin DoChan
  cases s.sf <;> exact ⟨rfl, rfl⟩

theorem step_npc {s s' : State} {e : Event} (hs : step s e = .ok s')
    (h1 : ∀ p, e ≠ .select p) (h2 : e ≠ .close) : s'.npc = s.npc ∧ s'.writes = s.writes := by
  cases e with
  | select p => exact absurd rfl (h1 p)
  | close => exact absurd rfl h2
  | begin =>
    simp only [step, ctxRootDone, ctxDeadline, doCallStart, doCallReturn, untilWithContext] at hs
    repeat' split at hs
    all_goals first
      | (cases hs; exact checkFuncBegin_npc s true)
      | cases hs
  | tick => cases hs; exact ⟨rfl, rfl⟩
  | rootDone dl =>
    simp only [step, ctxRootDone, ctxDeadline, doCallStart, doCallReturn, untilWithContext] at hs
    split at hs
    · cases hs
    · cases hs; exact ⟨rfl, rfl⟩
  | deadline k =>
    simp only [step, ctxRootDone, ctxDeadline, doCallStart, doCallReturn, untilWithContext] at hs
    repeat' split at hs
    all_goals first | cases hs; exact ⟨rfl, rfl⟩ | cases hs
  | callStart g =>
    simp only [step, ctxRootDone, ctxDeadline, doCallStart, doCallReturn, untilWithContext] at hs
    repeat' split at hs
    all_goals first | (cases hs; exact ⟨rfl, rfl⟩) | cases hs
  | pingReturn g err =>
    simp only [step, ctxRootDone, ctxDeadline, doCallStart, doCallReturn, untilWithContext] at hs
    repeat' split at hs
    all_goals first | (cases hs; exact ⟨rfl, rfl⟩) | cases hs
  | timer =>
    simp only [step, ctxRootDone, ctxDeadline, doCallStart, doCallReturn, untilWithContext] at hs
    repeat' split at hs
    all_goals first | (cases hs; exact ⟨rfl, rfl⟩) | cases hs
  | stop =>
    simp only [step, ctxRootDone, ctxDeadline, doCallStart, doCallReturn, untilWithContext] at hs
    repeat' split at hs
    all_goals first | (cases hs; exact ⟨rfl, rfl⟩) | cases hs

theorem step_close {t0 : Time} {s s' : State} (h : Inv t0 s) (hs : step s .close = .ok s') :
    s.pc = .closing ∧ s.npc.firstPingCompleted = false ∧ s'.npc.firstPingCompleted = true ∧
      s.writes.length = 1 ∧ s.attempts.length = 1 ∧ s'.writes = s.writes ∧
      s'.attempts = s.attempts := by
  simp only [step, ctxRootDone, ctxDeadline, doCallStart, doCallReturn, untilWithContext] at hs
  have h8 := h.pcInv
  cases hp : s.pc with
  | closing =>
    rw [hp] at h8
    simp only [hp] at hs
    split at hs
    · cases hs
    · cases hs
      exact ⟨rfl, h8.1, rfl, h8.2.1, h8.2.2, rfl, rfl⟩
  | start => simp [hp] at hs
  | inCheck k f => simp [hp] at hs
  | loopHead => simp [hp] at hs
  | loopWait d => simp [hp] at hs
  | stopped => simp [hp] at hs

theorem step_select_fired {s s' : State} {p : SelectCase} (hs : step s (.select p) = .ok s') :
    s'.npc.firstPingCompleted = s.npc.firstPingCompleted := by
  simp only [step, ctxRootDone, ctxDeadline, doCallStart, doCallReturn, untilWithContext] at hs
  split at hs
  · simp only [checkFuncSelect] at hs
    split at hs
    · cases hs; rfl
    · cases hs
    · cases hs
  · cases hs

theorem step_fired {t0 : Time} {s s' : State} {e : Event} (h : Inv t0 s)
    (hs : step s e = .ok s') :
    (if e = .close then 1 else 0) + (if s.npc.firstPingCompleted then 1 else 0) =
      (if s'.npc.firstPingCompleted then 1 else 0) := by
  by_cases hc : e = .close
  · subst hc
    obtain ⟨_, h1, h2, _⟩ := step_close h hs
    simp [h1, h2]
  · by_cases hsel : ∃ p, e = .select p
    · obtain ⟨p, hp⟩ := hsel
      subst hp
      simp [step_select_fired hs]
    · have := (step_npc hs (fun p hp => hsel ⟨p, hp⟩) hc).1
      simp [hc, this]

theorem exec_count_close {t0 : Time} (evs : List Event) {s s' : State} (h : Inv t0 s)
    (hs : exec s evs = .ok s') :
    evs.count .close + (if s.npc.firstPingCompleted then 1 else 0) =
      (if s'.npc.firstPingCompleted then 1 else 0) := by
  induction evs generalizing s with
  | nil =>
    simp only [exec, Outcome.ok.injEq] at hs
    subst hs
    simp
  | cons e es ih =>
    simp only [exec] at hs
    cases h1 : step s e with
    | ok s1 =>
      simp only [h1] at hs
      have := ih (inv_step h e h1) hs
      have h2 := step_fired h h1
      rw [List.count_cons]
      by_cases hc : e = .close
      · simp only [hc, if_true] at h2
        simp only [hc, beq_self_eq_true, if_true]
        omega
      · simp only [hc, if_false] at h2
        have : (e == Event.close) = false := by simpa using hc
        simp only [this]
        simp at *
        omega
    | blocked => simp [h1] at hs
    | panicked m => simp [h1] at hs

theorem exec_append (a b : List Event) {s s' : State} (hs : exec s (a ++ b) = .ok s') :
    ∃ s1, exec s a = .ok s1 ∧ exec s1 b = .ok s' := by
  induction a generalizing s with
  | nil => exact ⟨s, rfl, hs⟩
  | cons e es ih =>
    simp only [List.cons_append, exec] at hs ⊢
    cases h1 : step s e with
    | ok s1 =>
      simp only [h1] at hs ⊢
      exact ih hs
    | blocked => simp [h1] at hs
    | panicked m => simp [h1] at hs

/-! ## Construction -/

/-- C1: `newNodePingController` panics if and only if the interval is 0 or a timeout
is provided and equals 0; in every other case it returns the coordinator that
stores exactly the given provider, interval and timeout, with an unfired barrier
and a zero-valued result. -/
theorem C1_newNodePingController_panics_iff (node : NodeProvider) (interval : Duration)
    (timeout : Option Duration) :
    ((∃ m, newNodePingController node interval timeout = .panicked m) ↔
        (interval = 0 ∨ timeout = some 0)) ∧
      (newNodePingController node interval timeout =
          .ok { nodeProvider := node, pingInterval := interval, firstPingCompleted := false,
                pingTimeout := timeout, result := { pingTime := 0, error := none } } ↔
        ¬ (interval = 0 ∨ timeout = some 0)) ∧
      newNodePingController node interval timeout ≠ .blocked := by
  unfold newNodePingController zeroResult
  by_cases h0 : interval = 0
  · simp [h0]
  · cases timeout with
    | none => simp [h0]
    | some t =>
      by_cases ht : t = 0
      · simp [h0, ht]
      · simp [h0, ht]

/-- C2, as stated, fails: an interval of -1 and a timeout of -5 are not strictly
positive, and construction returns a coordinator that stores them. -/
theorem C2_counterexample :
    newNodePingController 7 (-1) (some (-5)) =
        .ok { nodeProvider := 7, pingInterval := -1, firstPingCompleted := false,
              pingTimeout := some (-5), result := zeroResult } ∧
      ¬ ((0 : Duration) < -1) ∧ ¬ ((0 : Duration) < -5) := by
  decide

/-- C2, amended: construction returns a coordinator exactly when the interval is not
0 and the timeout, if present, is not 0; every coordinator it returns stores the
given interval and timeout, so its interval is not 0 and its timeout, if present,
is not 0. Negative durations are accepted. -/
theorem C2_constructed_durations_nonzero (node : NodeProvider) (interval : Duration)
    (timeout : Option Duration) :
    ((∃ npc, newNodePingController node interval timeout = .ok npc) ↔
        (interval ≠ 0 ∧ timeout ≠ some 0)) ∧
      ∀ npc, newNodePingController node interval timeout = .ok npc →
        npc.pingInterval = interval ∧ npc.pingTimeout = timeout ∧
          npc.pingInterval ≠ 0 ∧ ∀ t, npc.pingTimeout = some t → t ≠ 0 := by
  constructor
  · constructor
    · rintro ⟨npc, h⟩
      obtain ⟨h1, h2, _⟩ := newNodePingController_ok h
      exact ⟨h1, h2⟩
    · rintro ⟨h1, h2⟩
      unfold newNodePingController
      cases timeout with
      | none => simp [h1]
      | some t =>
        have : t ≠ 0 := fun h => h2 (by rw [h])
        simp [h1, this]
  · intro npc h
    obtain ⟨h1, h2, h3⟩ := newNodePingController_ok h
    subst h3
    refine ⟨rfl, rfl, h1, ?_⟩
    intro t ht h0
    apply h2
    simp only at ht
    rw [ht, h0]

/-! ## getResult -/

/-- C4, as stated, fails: the barrier has fired, and a call whose context is
cancelled can still return no result and the cancellation error, because the
`select` may take the context's case. -/
theorem C4_counterexample :
    ({ demoNpc with firstPingCompleted := true } : nodePingController).firstPingCompleted = true ∧
      getResult { demoNpc with firstPingCompleted := true } (some .canceled) .ctxDone =
        .ok (none, some .canceled) := by
  decide

/-- C4, amended: `getResult` never panics and has exactly two outcomes, each only
when its `select` case is ready: the pointer to the cached result with a nil error,
only once the barrier has fired; or no result and the context's error, only when
the caller's context is done. With the barrier fired and the context live it
returns the cached result; with the context done and the barrier unfired it
returns the context's error; with both, the `select` may take either case; with
neither, it blocks. No action of a run reopens a fired barrier. -/
theorem C4_getResult_outcomes (npc : nodePingController) (ctxErr : Option Error)
    (pick : SelectCase) :
    (∀ m, getResult npc ctxErr pick ≠ .panicked m) ∧
      (∀ p err, getResult npc ctxErr pick = .ok (p, err) →
        (p = some .npcResult ∧ err = none ∧ npc.firstPingCompleted = true ∧
            deref npc .npcResult = npc.result) ∨
          (p = none ∧ err ≠ none ∧ err = ctxErr)) ∧
      (npc.firstPingCompleted = true → ctxErr = none →
        getResult npc ctxErr .other = .ok (some .npcResult, none) ∧
          getResult npc ctxErr .ctxDone = .blocked) ∧
      (npc.firstPingCompleted = false → ∀ e, ctxErr = some e →
        getResult npc ctxErr .ctxDone = .ok (none, some e) ∧
          getResult npc ctxErr .other = .blocked) ∧
      (npc.firstPingCompleted = true → ∀ e, ctxErr = some e →
        getResult npc ctxErr .other = .ok (some .npcResult, none) ∧
          getResult npc ctxErr .ctxDone = .ok (none, some e)) ∧
      (npc.firstPingCompleted = false → ctxErr = none →
        getResult npc ctxErr pick = .blocked) ∧
      (∀ s e s', s.npc = npc → step s e = .ok s' → npc.firstPingCompleted = true →
        s'.npc.firstPingCompleted = true) := by
  refine ⟨?_, ?_, ?_, ?_, ?_, ?_, ?_⟩
  · intro m
    cases pick <;> cases ctxErr <;> cases hf : npc.firstPingCompleted <;>
      simp [getResult, hf]
  · intro p err h
    cases pick with
    | ctxDone =>
      cases ctxErr with
      | none => simp [getResult] at h
      | some e =>
        simp only [getResult, Outcome.ok.injEq, Prod.mk.injEq] at h
        right
        exact ⟨h.1.symm, by rw [← h.2]; simp, h.2.symm⟩
    | other =>
      cases hf : npc.firstPingCompleted with
      | false => simp [getResult, hf] at h
      | true =>
        simp only [getResult, hf, if_true, Outcome.ok.injEq, Prod.mk.injEq] at h
        left
        exact ⟨h.1.symm, h.2.symm, rfl, rfl⟩
  · intro hf hc
    simp [getResult, hf, hc]
  · intro hf e hc
    simp [getResult, hf, hc]
  · intro hf e hc
    simp [getResult, hf, hc]
  · intro hf hc
    cases pick <;> simp [getResult, hf, hc]
  · intro s e s' hn hs hf
    subst hn
    by_cases hsel : ∃ p, e = .select p
    · obtain ⟨p, hp⟩ := hsel
      subst hp
      rw [step_select_fired hs, hf]
    · by_cases hc : e = .close
      · subst hc
        simp only [step] at hs
        repeat' split at hs
        all_goals cases hs
      · rw [(step_npc hs (fun p hp => hsel ⟨p, hp⟩) hc).1, hf]

/-! ## The probe attempt -/

theorem step_result {s s' : State} {e : Event} (hs : step s e = .ok s')
    (h1 : ∀ p, e ≠ .select p) : s'.npc.result = s.npc.result := by
  by_cases hc : e = .close
  · subst hc
    simp only [step, ctxRootDone, ctxDeadline, doCallStart, doCallReturn, untilWithContext] at hs
    repeat' split at hs
    all_goals first | (cases hs; rfl) | cases hs
  · rw [(step_npc hs h1 hc).1]

theorem exec_result (evs : List Event) {s s' : State} (hs : exec s evs = .ok s')
    (h1 : ∀ e ∈ evs, ∀ p, e ≠ .select p) : s'.npc.result = s.npc.result := by
  induction evs generalizing s with
  | nil =>
    simp only [exec, Outcome.ok.injEq] at hs
    subst hs
    rfl
  | cons e es ih =>
    simp only [exec] at hs
    cases h2 : step s e with
    | ok s1 =>
      simp only [h2] at hs
      rw [ih hs (fun e1 he1 => h1 e1 (List.mem_cons_of_mem _ he1)),
        step_result h2 (h1 e (List.mem_cons_self _ _))]
    | blocked => simp [h2] at hs
    | panicked m => simp [h2] at hs

theorem checkFuncSelect_ok {s s' : State} {k : Nat} {first : Bool} {pick : SelectCase}
    (hs : checkFuncSelect s k first pick = .ok s') :
    ∃ r, checkFuncRace s k pick = .ok r ∧ s' = checkFuncStore s k first r := by
  unfold checkFuncSelect at hs
  cases hr : checkFuncRace s k pick with
  | ok r =>
    simp only [hr, Outcome.ok.injEq] at hs
    exact ⟨r, rfl, hs.symm⟩
  | blocked => simp [hr] at hs
  | panicked m => simp [hr] at hs

/-- C3, as stated, fails: the first attempt's context is done first (its timeout has
fired while the group has delivered nothing), then `Ping` returns nil, and the
`select`, with both cases ready, takes the group's case: the attempt records the
group's time and a nil error, not the context's error. -/
theorem C3_counterexample :
    (demoRun demoStuck).pc = .inCheck 0 true ∧
      ctxErrOf (demoRun demoStuck) 0 = some .deadlineExceeded ∧
      doChan (demoRun demoStuck) 0 = none ∧
      (demoRun (demoStuck ++ [.tick, .pingReturn 0 none, .select .other])).npc.result =
        { pingTime := 100, error := none } := by
  decide

/-- C3, amended: in a reachable state the result `checkFunc` writes for attempt `k` is
determined by the case its `select` takes. If the context's case is taken, the
context is done, the recorded error is exactly its error, which is `Canceled` or
`DeadlineExceeded` (never nil), and `pingTime` is the zero value. If the group's
case is taken, the group has delivered and the recorded error and time are exactly
the delivered error and value. After either, whatever happens (the provider
returning included), the cached result stays until the next attempt writes. A case
that is not ready cannot be taken and a ready case can: while only the context is
done the context's case is taken, while only the group has delivered the group's
case is taken, and once both are ready either may be. -/
theorem C3_checkFunc_select_case (node : NodeProvider) (interval : Duration)
    (timeout : Option Duration) (t0 : Time) (s : State) (k : Nat) (first : Bool)
    (hr : Reachable node interval timeout t0 s) :
    (∀ s', checkFuncSelect s k first .ctxDone = .ok s' →
        ∃ e, ctxErrOf s k = some e ∧ (e = .canceled ∨ e = .deadlineExceeded) ∧
          s'.npc.result = { pingTime := 0, error := some e }) ∧
      (∀ s', checkFuncSelect s k first .other = .ok s' →
        ∃ r t, doChan s k = some r ∧ r.Val = .time t ∧
          s'.npc.result = { pingTime := t, error := r.Err }) ∧
      (∀ pick s' evs s'', checkFuncSelect s k first pick = .ok s' →
        (∀ e ∈ evs, ∀ p, e ≠ .select p) → exec s' evs = .ok s'' →
        s''.npc.result = s'.npc.result) ∧
      (ctxErrOf s k = none → checkFuncSelect s k first .ctxDone = .blocked) ∧
      (doChan s k = none → checkFuncSelect s k first .other = .blocked) ∧
      (∀ e, ctxErrOf s k = some e →
        checkFuncSelect s k first .ctxDone =
          .ok (checkFuncStore s k first { pingTime := 0, error := some e })) ∧
      (∀ r, doChan s k = some r → ∃ t, r.Val = .time t ∧
        checkFuncSelect s k first .other =
          .ok (checkFuncStore s k first { pingTime := t, error := r.Err })) := by
  have hinv := inv_reachable hr
  refine ⟨?_, ?_, ?_, ?_, ?_, ?_, ?_⟩
  · intro s' hs
    obtain ⟨r, h1, h2⟩ := checkFuncSelect_ok hs
    subst h2
    simp only [checkFuncRace] at h1
    cases he : ctxErrOf s k with
    | none => simp [he] at h1
    | some e =>
      simp only [he, Outcome.ok.injEq] at h1
      subst h1
      refine ⟨e, rfl, ?_, rfl⟩
      unfold ctxErrOf at he
      cases ha : s.attempts[k]? with
      | none => simp [ha] at he
      | some a =>
        simp only [ha] at he
        exact hinv.ctxKind k a e ha he
  · intro s' hs
    obtain ⟨r, h1, h2⟩ := checkFuncSelect_ok hs
    subst h2
    simp only [checkFuncRace] at h1
    cases hd : doChan s k with
    | none => simp [hd] at h1
    | some res =>
      obtain ⟨a, c, now, fin, _, _, _, b4, _⟩ := doChan_returned hinv k res hd
      simp only [hd, b4, Outcome.ok.injEq] at h1
      subst h1
      exact ⟨res, now, rfl, b4, rfl⟩
  · intro pick s' evs s'' _ hne hex
    exact exec_result evs hex hne
  · intro he
    simp [checkFuncSelect, checkFuncRace, he]
  · intro hd
    simp [checkFuncSelect, checkFuncRace, hd]
  · intro e he
    simp [checkFuncSelect, checkFuncRace, he]
  · intro r hd
    obtain ⟨_, _, now, _, _, _, _, b4, _⟩ := doChan_returned hinv k r hd
    exact ⟨now, b4, by simp [checkFuncSelect, checkFuncRace, hd, b4]⟩

/-- C3, amended, at concrete runs: the first attempt's timeout fires while `Ping`
hangs. While the group has delivered nothing only the context's case can be taken;
taking it records `DeadlineExceeded` with the zero time, and the provider returning
afterwards leaves that result in the cache. -/
theorem C3_witness :
    checkFuncSelect (demoRun demoStuck) 0 true .other = .blocked ∧
      (demoRun (demoStuck ++ [.select .ctxDone])).npc.result =
        { pingTime := 0, error := some .deadlineExceeded } ∧
      (demoRun (demoStuck ++ [.select .ctxDone, .tick, .pingReturn 0 none])).npc.result =
        { pingTime := 0, error := some .deadlineExceeded } := by
  have h := C3_checkFunc_select_case 7 10 (some 5) 100 (demoRun demoStuck) 0 true
    ⟨demoNpc, demoStuck, by decide, by decide⟩
  have hsel : checkFuncSelect (demoRun demoStuck) 0 true .ctxDone =
      .ok (demoRun (demoStuck ++ [.select .ctxDone])) := by decide
  obtain ⟨e, h1, _, h2⟩ := h.1 _ hsel
  have h3 : e = .deadlineExceeded := by
    have : ctxErrOf (demoRun demoStuck) 0 = some .deadlineExceeded := by decide
    rw [this] at h1
    exact (Option.some.inj h1).symm
  subst h3
  refine ⟨h.2.2.2.2.1 (by decide), h2, ?_⟩
  rw [← h2]
  exact h.2.2.1 .ctxDone _ [.tick, .pingReturn 0 none]
    (demoRun (demoStuck ++ [.select .ctxDone, .tick, .pingReturn 0 none])) hsel
    (by
      intro e he p
      simp only [List.mem_cons, List.mem_singleton, List.not_mem_nil, or_false] at he
      rcases he with rfl | rfl <;> simp)
    (by decide)

/-! ## The readiness barrier -/

theorem fired_writes {t0 : Time} {s : State} (h : Inv t0 s)
    (hf : s.npc.firstPingCompleted = true) : s.writes ≠ [] := by
  have h8 := h.pcInv
  cases hp : s.pc with
  | start => rw [hp] at h8; simp [hf] at h8
  | inCheck k first =>
    rw [hp] at h8
    cases first with
    | true => simp [hf] at h8
    | false => exact (h8.2.2 rfl).2
  | closing => rw [hp] at h8; simp [hf] at h8
  | loopHead => rw [hp] at h8; exact h8.2
  | loopWait d => rw [hp] at h8; exact h8.2
  | stopped => rw [hp] at h8; exact h8.2

theorem unfired_attempts {t0 : Time} {s : State} (h : Inv t0 s)
    (hf : s.npc.firstPingCompleted = false) : s.attempts.length ≤ 1 ∧ s.writes.length ≤ 1 := by
  have h8 := h.pcInv
  cases hp : s.pc with
  | start => rw [hp] at h8; simp [h8.2.1, h8.2.2]
  | inCheck k first =>
    rw [hp] at h8
    cases first with
    | true =>
      obtain ⟨h1, h2, h3⟩ := h8.2.1 rfl
      rw [← h8.1, h3, h2]
      simp
    | false => simp [hf] at h8
  | closing => rw [hp] at h8; simp [h8.2.1, h8.2.2]
  | loopHead => rw [hp] at h8; simp [hf] at h8
  | loopWait d => rw [hp] at h8; simp [hf] at h8
  | stopped => rw [hp] at h8; simp [hf] at h8

/-- C5: in a run that starts at a time `t0` after the zero time, the readiness
barrier is closed exactly once: the actions taken contain one `close` if the barrier
has fired and none otherwise. When it is closed, exactly one attempt has begun and
exactly one result has been written, so it fires after the first write and before
any second attempt begins; while it is unfired at most one attempt has begun, and
once the first attempt has returned the close is enabled and fires the barrier.
Consequently every pointer a successful `getResult` returns shows the newest write
of a completed attempt, which is not the zero-valued initial result. -/
theorem C5_barrier_after_first_write (node : NodeProvider) (interval : Duration)
    (timeout : Option Duration) (t0 : Time) (npc : nodePingController) (evs : List Event)
    (s : State) (hnew : newNodePingController node interval timeout = .ok npc)
    (hex : exec (initState npc t0) evs = .ok s) (ht0 : 0 < t0) :
    evs.count .close = (if s.npc.firstPingCompleted then 1 else 0) ∧
      (∀ pre post, evs = pre ++ .close :: post →
        ∃ s1, exec (initState npc t0) pre = .ok s1 ∧ s1.npc.firstPingCompleted = false ∧
          s1.attempts.length = 1 ∧ s1.writes.length = 1) ∧
      (s.npc.firstPingCompleted = false → s.attempts.length ≤ 1) ∧
      (s.pc = .closing → ∃ s2, step s .close = .ok s2 ∧ s2.npc.firstPingCompleted = true) ∧
      (∀ ctxErr pick p err, getResult s.npc ctxErr pick = .ok (some p, err) →
        s.writes.head? = some (deref s.npc p) ∧ deref s.npc p ≠ zeroResult) := by
  obtain ⟨_, _, hnpc⟩ := newNodePingController_ok hnew
  have hinit : Inv t0 (initState npc t0) := inv_init npc t0 (by rw [hnpc]) (by rw [hnpc])
  have hinv : Inv t0 s := inv_exec evs hinit hex
  refine ⟨?_, ?_, ?_, ?_, ?_⟩
  · have := exec_count_close evs hinit hex
    have h0 : (initState npc t0).npc.firstPingCompleted = false := by
      simp [initState, hnpc]
    simpa [h0] using this
  · intro pre post hev
    subst hev
    obtain ⟨s1, h1, h2⟩ := exec_append pre (.close :: post) hex
    refine ⟨s1, h1, ?_⟩
    have hinv1 : Inv t0 s1 := inv_exec pre hinit h1
    simp only [exec] at h2
    cases h3 : step s1 .close with
    | ok s2 =>
      obtain ⟨_, b2, _, b4, b5, _⟩ := step_close hinv1 h3
      exact ⟨b2, b5, b4⟩
    | blocked => simp [h3] at h2
    | panicked m => simp [h3] at h2
  · intro hf
    exact (unfired_attempts hinv hf).1
  · intro hp
    have h8 := hinv.pcInv
    rw [hp] at h8
    simp only [step, hp, h8.1]
    exact ⟨_, rfl, rfl⟩
  · intro ctxErr pick p err hg
    have hf : s.npc.firstPingCompleted = true := by
      cases pick with
      | ctxDone =>
        cases ctxErr <;> simp [getResult] at hg
      | other =>
        cases hf : s.npc.firstPingCompleted with
        | true => rfl
        | false => simp [getResult, hf] at hg
    have hw := fired_writes hinv hf
    cases p
    simp only [deref]
    obtain ⟨r, rs, hrs⟩ := List.exists_cons_of_ne_nil hw
    have hres := hinv.resultHead
    rw [hrs] at hres
    simp only [List.headD_cons] at hres
    refine ⟨by rw [hrs, hres]; rfl, ?_⟩
    rw [hres]
    have := hinv.writesSet r (by rw [hrs]; exact List.mem_cons_self _ _)
    intro hz
    rw [hz] at this
    simp only [zeroResult, ne_eq, not_true_eq_false, false_or] at this
    linarith

/-- C5 at a concrete run: after the first attempt succeeded and the barrier was
closed, `getResult` returns a pointer to the first attempt's result. -/
theorem C5_witness :
    [Event.begin, .callStart 0, .tick, .pingReturn 0 none, .select .other, .close].count .close =
        1 ∧
      (demoRun (demoQuick ++ [.select .other, .close])).writes.head? =
        some (deref (demoRun (demoQuick ++ [.select .other, .close])).npc .npcResult) ∧
      deref (demoRun (demoQuick ++ [.select .other, .close])).npc .npcResult ≠ zeroResult := by
  have h := C5_barrier_after_first_write 7 10 (some 5) 100 demoNpc
    (demoQuick ++ [.select .other, .close])
    (demoRun (demoQuick ++ [.select .other, .close])) (by decide) (by decide) (by decide)
  have h4 := h.2.2.2.2 none .other .npcResult none (by decide)
  exact ⟨by decide, h4.1, h4.2⟩

/-! ## The dedup group -/

theorem countP_le_one {α : Type} (p : α → Bool) (l : List α)
    (h : ∀ (i j : Nat) (a b : α), l[i]? = some a → l[j]? = some b → p a = true → p b = true →
      i = j) : l.countP p ≤ 1 := by
  induction l with
  | nil => simp
  | cons x xs ih =>
    have hxs : xs.countP p ≤ 1 := by
      apply ih
      intro i j a b hi hj ha hb
      have := h (i + 1) (j + 1) a b (by simpa using hi) (by simpa using hj) ha hb
      omega
    by_cases hx : p x = true
    · have h0 : xs.countP p = 0 := by
        rw [List.countP_eq_zero]
        intro a ha hpa
        obtain ⟨j, hj⟩ := List.getElem?_of_mem ha
        have := h 0 (j + 1) x a (by simp) (by simpa using hj) hx hpa
        omega
      rw [List.countP_cons_of_pos _ _ hx, h0]
    · rw [List.countP_cons_of_neg _ _ hx]
      exact hxs

theorem active_inFlight (c : Call) (h : c.active = true) : c.inFlight = true := by
  unfold Call.active at h
  unfold Call.inFlight
  cases hp : c.phase <;> simp_all

/-- C6: in every reachable state at most one call of the dedup group is inside the
provider's `Ping`, and at most one has not yet returned. An attempt that begins
while a call has not returned (also one abandoned by a timed-out attempt) starts no
new call: it is attached to that call, whose duplicate count goes up by one. When
the `Ping` of a call returns, every attempt attached to it finds the call's time
value and the returned error on its channel. -/
theorem C6_single_ping_in_flight (node : NodeProvider) (interval : Duration)
    (timeout : Option Duration) (t0 : Time) (s : State)
    (hr : Reachable node interval timeout t0 s) :
    s.calls.countP Call.active ≤ 1 ∧
      s.calls.countP Call.inFlight ≤ 1 ∧
      (∀ (g : Nat) (c : Call) (first : Bool), s.calls[g]? = some c → c.inFlight = true →
        (checkFuncBegin s first).calls.length = s.calls.length ∧
          (checkFuncBegin s first).calls[g]? = some { c with dups := c.dups + 1 } ∧
          ∃ a, (checkFuncBegin s first).attempts[s.attempts.length]? = some a ∧ a.call = g) ∧
      (∀ (k : Nat) (a : Attempt) (c : Call) (now : Time) (err : Option Error),
        s.attempts[k]? = some a → s.calls[a.call]? = some c → c.phase = .pinging now →
        doChan (doCallFinish s a.call now err) k =
          some { Val := .time now, Err := err, Shared := decide (0 < c.dups) }) := by
  have hinv := inv_reachable hr
  have huniq : ∀ (i j : Nat) (a b : Call), s.calls[i]? = some a → s.calls[j]? = some b →
      a.inFlight = true → b.inFlight = true → i = j := by
    intro i j a b hi hj ha hb
    have h1 := hinv.liveSf i a hi ha
    have h2 := hinv.liveSf j b hj hb
    rw [h1] at h2
    exact Option.some.inj h2
  refine ⟨?_, ?_, ?_, ?_⟩
  · apply countP_le_one
    intro i j a b hi hj ha hb
    exact huniq i j a b hi hj (active_inFlight a ha) (active_inFlight b hb)
  · exact countP_le_one _ _ huniq
  · intro g c first hg hfl
    have hsf := hinv.liveSf g c hg hfl
    unfold checkFuncBegin DoChan
    simp only [hsf]
    refine ⟨upd_length _ _ _, ?_, ?_⟩
    · simp [getElem?_upd, hg]
    · exact ⟨(⟨(mkContextFunc s.npc s.rootErr s.clock).1,
        (mkContextFunc s.npc s.rootErr s.clock).2, g⟩ : Attempt), by simp [getElem?_snoc], rfl⟩
  · intro k a c now err ha hc hp
    unfold doChan doCallFinish
    simp only [ha, getElem?_upd, if_true, hc, Option.map_some', closureReturn]

/-- C6 at a concrete run: the first `Ping` hangs, the first attempt times out, and the
second attempt begins; there is still one call, inside `Ping`, and the second
attempt is attached to it. -/
theorem C6_witness :
    (demoRun demoJoin).calls.countP Call.active ≤ 1 ∧
      (demoRun demoJoin).calls.length = 1 ∧
      (demoRun demoJoin).calls.countP Call.active = 1 ∧
      (demoRun demoJoin).attempts.length = 2 := by
  have h := C6_single_ping_in_flight 7 10 (some 5) 100 (demoRun demoJoin)
    ⟨demoNpc, demoJoin, by decide, by decide⟩
  exact ⟨h.1, by decide, by decide, by decide⟩

/-- C7, as stated, fails: `Ping` is invoked at time 100 and returns at time 101; the
attempt takes the group's result and records 100, which is earlier than the instant
the provider call finished. -/
theorem C7_counterexample :
    (demoRun (demoQuick ++ [.select .other])).npc.result = { pingTime := 100, error := none } ∧
      ((demoRun (demoQuick ++ [.select .other])).calls[0]?).bind Call.finishedAt = some 101 ∧
      ¬ ((101 : Time) ≤ (demoRun (demoQuick ++ [.select .other])).npc.result.pingTime) := by
  decide

/-- C7, amended: when an attempt takes the group's result, the recorded `pingTime` is
the clock value the call's closure read before it invoked `Ping` (the start of the
provider's probe operation), and the recorded error is the one `Ping` returned; so
`pingTime` is never later than the instant the provider call finished. -/
theorem C7_pingTime_is_start (node : NodeProvider) (interval : Duration)
    (timeout : Option Duration) (t0 : Time) (s s' : State) (k : Nat) (first : Bool)
    (hr : Reachable node interval timeout t0 s)
    (hs : checkFuncSelect s k first .other = .ok s') :
    (∃ a c fin, s.attempts[k]? = some a ∧ s.calls[a.call]? = some c ∧
        c.phase = .returned (.time s'.npc.result.pingTime) s'.npc.result.error ∧
        c.startedAt = some s'.npc.result.pingTime ∧ c.finishedAt = some fin ∧
        s'.npc.result.pingTime ≤ fin) ∧
      (∀ clock c, (closureStart clock c).phase = .pinging clock ∧
        (closureStart clock c).startedAt = some clock) ∧
      (∀ clock now err c, (closureReturn clock now err c).phase = .returned (.time now) err ∧
        (closureReturn clock now err c).finishedAt = some clock) := by
  have hinv := inv_reachable hr
  obtain ⟨r, h1, h2⟩ := checkFuncSelect_ok hs
  subst h2
  refine ⟨?_, fun _ _ => ⟨rfl, rfl⟩, fun _ _ _ _ => ⟨rfl, rfl⟩⟩
  simp only [checkFuncRace] at h1
  cases hd : doChan s k with
  | none => simp [hd] at h1
  | some res =>
    obtain ⟨a, c, now, fin, b1, b2, b3, b4, b5, b6, b7, _⟩ := doChan_returned hinv k res hd
    simp only [hd, b4, Outcome.ok.injEq] at h1
    subst h1
    exact ⟨a, c, fin, b1, b2, b3, b5, b6, b7⟩

/-- C7, amended, at a concrete run: `Ping` starts at 100 and returns at 101, and the
attempt records 100. -/
theorem C7_witness :
    ((demoRun demoQuick).calls[0]?).bind Call.finishedAt = some 101 ∧
      (demoRun (demoQuick ++ [.select .other])).npc.result.pingTime ≤ 101 := by
  obtain ⟨⟨a, c, fin, h1, h2, _, _, h5, h6⟩, _⟩ :=
    C7_pingTime_is_start 7 10 (some 5) 100 (demoRun demoQuick)
      (demoRun (demoQuick ++ [.select .other])) 0 true
      ⟨demoNpc, demoQuick, by decide, by decide⟩ (by decide)
  have ha : (demoRun demoQuick).attempts[0]? = some ⟨some 105, none, 0⟩ := by decide
  rw [ha] at h1
  cases h1
  have hc : (demoRun demoQuick).calls[0]? =
      some ⟨0, 0, .returned (.time 100) none, some 100, some 101⟩ := by decide
  simp only at h2
  rw [hc] at h2
  cases h2
  simp only [Option.some.injEq] at h5
  subst h5
  exact ⟨by decide, h6⟩

/-! ## Panics and cancellation -/

theorem checkFuncSelect_no_panic {t0 : Time} {s : State} (h : Inv t0 s) (k : Nat)
    (first : Bool) (pick : SelectCase) (m : String) :
    checkFuncSelect s k first pick ≠ .panicked m := by
  unfold checkFuncSelect checkFuncRace
  cases pick with
  | ctxDone =>
    cases ctxErrOf s k <;> simp
  | other =>
    cases hd : doChan s k with
    | none => simp
    | some res =>
      obtain ⟨_, _, now, _, _, _, _, b4, _⟩ := doChan_returned h k res hd
      simp [b4]

theorem step_no_panic {t0 : Time} {s : State} (h : Inv t0 s) (e : Event) (m : String) :
    step s e ≠ .panicked m := by
  cases e with
  | select pick =>
    simp only [step, ctxRootDone, ctxDeadline, doCallStart, doCallReturn, untilWithContext]
    cases hp : s.pc with
    | inCheck k first => exact checkFuncSelect_no_panic h k first pick m
    | start => simp
    | closing => simp
    | loopHead => simp
    | loopWait d => simp
    | stopped => simp
  | close =>
    simp only [step, ctxRootDone, ctxDeadline, doCallStart, doCallReturn, untilWithContext]
    have h8 := h.pcInv
    cases hp : s.pc with
    | closing =>
      rw [hp] at h8
      simp [h8.1]
    | start => simp
    | inCheck k first => simp
    | loopHead => simp
    | loopWait d => simp
    | stopped => simp
  | tick => simp [step]
  | rootDone dl =>
    simp only [step, ctxRootDone, ctxDeadline, doCallStart, doCallReturn, untilWithContext]
    cases s.rootErr <;> simp
  | deadline k =>
    simp only [step, ctxRootDone, ctxDeadline, doCallStart, doCallReturn, untilWithContext]
    intro hs
    repeat' split at hs
    all_goals cases hs
  | begin =>
    simp only [step, ctxRootDone, ctxDeadline, doCallStart, doCallReturn, untilWithContext]
    intro hs
    repeat' split at hs
    all_goals cases hs
  | callStart g =>
    simp only [step, ctxRootDone, ctxDeadline, doCallStart, doCallReturn, untilWithContext]
    intro hs
    repeat' split at hs
    all_goals cases hs
  | pingReturn g err =>
    simp only [step, ctxRootDone, ctxDeadline, doCallStart, doCallReturn, untilWithContext]
    intro hs
    repeat' split at hs
    all_goals cases hs
  | timer =>
    simp only [step, ctxRootDone, ctxDeadline, doCallStart, doCallReturn, untilWithContext]
    intro hs
    repeat' split at hs
    all_goals cases hs
  | stop =>
    simp only [step, ctxRootDone, ctxDeadline, doCallStart, doCallReturn, untilWithContext]
    intro hs
    repeat' split at hs
    all_goals cases hs

theorem exec_no_panic {t0 : Time} (evs : List Event) {s : State} (h : Inv t0 s)
    (m : String) : exec s evs ≠ .panicked m := by
  induction evs generalizing s with
  | nil => simp [exec]
  | cons e es ih =>
    simp only [exec]
    cases h1 : step s e with
    | ok s1 => exact ih (inv_step h e h1)
    | blocked => simp
    | panicked m1 => exact absurd h1 (step_no_panic h e m1)

/-- C9: in a reachable state in which attempt `k` waits in its `select`, `checkFunc`
never panics, whichever case is taken: the value on its channel is always a time
value, so the type assertion succeeds. Whenever it returns it has written exactly
one result and `run` goes on (to line 99 after the first attempt, to the loop's
timer otherwise). It does return as soon as a case is ready: when the context is
done, and when `Ping` has returned, with any error. From a reachable state no
sequence of actions makes the run panic. -/
theorem C9_checkFunc_never_panics (node : NodeProvider) (interval : Duration)
    (timeout : Option Duration) (t0 : Time) (s : State) (k : Nat) (first : Bool)
    (hr : Reachable node interval timeout t0 s) (hpc : s.pc = .inCheck k first) :
    (∀ pick m, checkFuncSelect s k first pick ≠ .panicked m) ∧
      (∀ pick s', checkFuncSelect s k first pick = .ok s' →
        ∃ r, s'.writes = r :: s.writes ∧ s'.npc.result = r ∧
          s'.pc = (if first then Pc.closing else Pc.loopWait (s.clock + s.npc.pingInterval))) ∧
      (∀ e, ctxErrOf s k = some e → ∃ s', checkFuncSelect s k first .ctxDone = .ok s') ∧
      (∀ r, doChan s k = some r →
        (∃ t, r.Val = .time t) ∧ ∃ s', checkFuncSelect s k first .other = .ok s') ∧
      (∃ a c, s.attempts[k]? = some a ∧ s.calls[a.call]? = some c ∧
        ∀ now err, c.phase = .pinging now →
          ∃ s', checkFuncSelect (doCallFinish s a.call now err) k first .other = .ok s') ∧
      (∀ evs m, exec s evs ≠ .panicked m) := by
  have hinv := inv_reachable hr
  refine ⟨?_, ?_, ?_, ?_, ?_, ?_⟩
  · intro pick m
    exact checkFuncSelect_no_panic hinv k first pick m
  · intro pick s' hs
    obtain ⟨r, _, h2⟩ := checkFuncSelect_ok hs
    subst h2
    exact ⟨r, rfl, rfl, rfl⟩
  · intro e he
    simp [checkFuncSelect, checkFuncRace, he]
  · intro r hd
    obtain ⟨_, _, now, _, _, _, _, b4, _⟩ := doChan_returned hinv k r hd
    exact ⟨⟨now, b4⟩, by simp [checkFuncSelect, checkFuncRace, hd, b4]⟩
  · have h8 := hinv.pcInv
    rw [hpc] at h8
    have hk : k < s.attempts.length := by omega
    have ha : s.attempts[k]? = some s.attempts[k] := List.getElem?_eq_getElem hk
    have hlt := hinv.attemptCall k _ ha
    have hc : s.calls[(s.attempts[k]).call]? = some s.calls[(s.attempts[k]).call] :=
      List.getElem?_eq_getElem hlt
    refine ⟨_, _, ha, hc, ?_⟩
    intro now err hp
    have hd : doChan (doCallFinish s (s.attempts[k]).call now err) k =
        some { Val := .time now, Err := err,
               Shared := decide (0 < (s.calls[(s.attempts[k]).call]).dups) } := by
      unfold doChan doCallFinish
      simp only [ha, getElem?_upd, if_true, hc, Option.map_some', closureReturn]
    simp [checkFuncSelect, checkFuncRace, hd]
  · intro evs m
    exact exec_no_panic evs hinv m

/-- C9 at a concrete run: the first `Ping` fails with a provider error, and the
attempt returns with that error written to the cache. -/
theorem C9_witness :
    ∃ s', checkFuncSelect
      (doCallFinish (demoRun [.begin, .callStart 0]) 0 100 (some (.provider 3))) 0 true .other =
        .ok s' := by
  obtain ⟨a, c, h1, h2, h3⟩ :=
    (C9_checkFunc_never_panics 7 10 (some 5) 100 (demoRun [.begin, .callStart 0]) 0 true
      ⟨demoNpc, [.begin, .callStart 0], by decide, by decide⟩ (by decide)).2.2.2.2.1
  have ha : (demoRun [.begin, .callStart 0]).attempts[0]? = some ⟨some 105, none, 0⟩ := by
    decide
  rw [ha] at h1
  cases h1
  have hc : (demoRun [.begin, .callStart 0]).calls[0]? =
      some ⟨0, 0, .pinging 100, some 100, none⟩ := by decide
  simp only at h2
  rw [hc] at h2
  cases h2
  exact h3 100 (some (.provider 3)) rfl

theorem ctxDone_result {t0 : Time} {s s' : State} {k : Nat} {first : Bool} (h : Inv t0 s)
    (hs : checkFuncSelect s k first .ctxDone = .ok s') :
    ∃ e, s'.npc.result.error = some e ∧ (e = .canceled ∨ e = .deadlineExceeded) := by
  obtain ⟨r, h1, h2⟩ := checkFuncSelect_ok hs
  subst h2
  simp only [checkFuncRace] at h1
  cases he : ctxErrOf s k with
  | none => simp [he] at h1
  | some e =>
    simp only [he, Outcome.ok.injEq] at h1
    subst h1
    refine ⟨e, rfl, ?_⟩
    unfold ctxErrOf at he
    cases ha : s.attempts[k]? with
    | none => simp [ha] at he
    | some a =>
      simp only [ha] at he
      exact h.ctxKind k a e ha he

/-- C10: when an attempt takes the context's case, it records a context error, and
when it returns the context handed to every `Ping` call that is still in flight is
done, with `Canceled` or `DeadlineExceeded`, whether that call was started by this
attempt or by an earlier one. -/
theorem C10_ping_context_cancelled (node : NodeProvider) (interval : Duration)
    (timeout : Option Duration) (t0 : Time) (s s' : State) (k : Nat) (first : Bool)
    (hr : Reachable node interval timeout t0 s) (hpc : s.pc = .inCheck k first)
    (hs : checkFuncSelect s k first .ctxDone = .ok s') :
    (∃ e, s'.npc.result.error = some e ∧ (e = .canceled ∨ e = .deadlineExceeded)) ∧
      s'.calls = s.calls ∧
      ∀ (g : Nat) (c : Call), s'.calls[g]? = some c → c.inFlight = true →
        c.ctx ≤ k ∧ ∃ e, ctxErrOf s' c.ctx = some e ∧ (e = .canceled ∨ e = .deadlineExceeded) := by
  have hinv := inv_reachable hr
  have h3 := ctxDone_result hinv hs
  obtain ⟨r, h1, h2⟩ := checkFuncSelect_ok hs
  have hinv' : Inv t0 s' := by
    rw [h2]
    exact inv_store hinv k first hpc r (checkFuncRace_ok hinv k .ctxDone r h1)
  refine ⟨h3, by rw [h2]; rfl, ?_⟩
  intro g c hg hfl
  have h8 := hinv.pcInv
  rw [hpc] at h8
  constructor
  · have hg' : s.calls[g]? = some c := by
      rw [h2] at hg
      exact hg
    rcases hinv.callCtx g c hg' hfl with ⟨f, h4⟩ | h4
    · rw [hpc] at h4
      simp only [Pc.inCheck.injEq] at h4
      omega
    · unfold ctxErrOf at h4
      cases ha : s.attempts[c.ctx]? with
      | none => simp [ha] at h4
      | some a =>
        have : c.ctx < s.attempts.length := by
          by_contra hc
          have := List.getElem?_eq_none (Nat.le_of_not_lt hc)
          rw [this] at ha
          cases ha
        omega
  · have hpc' : ∀ k2 f2, s'.pc ≠ .inCheck k2 f2 := by
      intro k2 f2
      rw [h2]
      simp only [checkFuncStore]
      cases first <;> simp
    rcases hinv'.callCtx g c hg hfl with ⟨f, h4⟩ | h4
    · exact absurd h4 (hpc' _ _)
    · cases he : ctxErrOf s' c.ctx with
      | none => exact absurd he h4
      | some e =>
        refine ⟨e, rfl, ?_⟩
        unfold ctxErrOf at he
        cases ha : s'.attempts[c.ctx]? with
        | none => simp [ha] at he
        | some a =>
          simp only [ha] at he
          exact hinv'.ctxKind c.ctx a e ha he

/-- C10 at a concrete run: the first `Ping` hangs, the first attempt times out, the
second attempt joins the hanging call and times out as well; when it returns, the
context handed to the hanging `Ping` (the first attempt's) is done. -/
theorem C10_witness :
    (demoRun demoSecondTimeout).calls[0]? = some ⟨0, 1, .pinging 100, some 100, none⟩ ∧
      (0 ≤ 1 ∧ ∃ e, ctxErrOf (demoRun (demoSecondTimeout ++ [.select .ctxDone])) 0 = some e ∧
        (e = .canceled ∨ e = .deadlineExceeded)) := by
  have h := C10_ping_context_cancelled 7 10 (some 5) 100 (demoRun demoSecondTimeout)
    (demoRun (demoSecondTimeout ++ [.select .ctxDone])) 1 false
    ⟨demoNpc, demoSecondTimeout, by decide, by decide⟩ (by decide) (by decide)
  exact ⟨by decide, h.2.2 0 ⟨0, 1, .pinging 100, some 100, none⟩ (by decide) (by decide)⟩

/-! ## The pointer returned by getResult -/

/-- C8 fails on the code: `getResult` takes no lock and returns the address of the
cache field, not a copy. A caller that queries after the first attempt reads
`(100, nil)` through the pointer; after the next attempt has written its result the
same pointer shows `(101, provider error 3)`. -/
theorem C8_getResult_pointer_is_live :
    getResult (demoRun demoFirstDone).npc none .other = .ok (some .npcResult, none) ∧
      deref (demoRun demoFirstDone).npc .npcResult = { pingTime := 100, error := none } ∧
      deref (demoRun demoSecondProbe).npc .npcResult =
        { pingTime := 101, error := some (.provider 3) } := by
  decide

end NodePing
